import Mathlib

/-!
Shallow embedding of `src/generator.py` (the name-generation core of the
repository) together with proofs of its specified properties.

Python strings are embedded as `List Char`, Python floats as `ℚ`, and the
seeded pseudo-random source `random.Random` as an explicit state `Rng`
carrying an arbitrary stream of natural numbers plus an error flag that is
raised exactly where CPython would raise (drawing from an empty sequence or
an empty `randrange`).  All generator functions thread this state
explicitly, so every function here is pure and executable.
-/

abbrev Str := List Char

/-- Whitespace characters, as matched by the `\s` class used in the source's
regular expressions (restricted to the ASCII whitespace actually reachable). -/
def is_space (c : Char) : Bool :=
  c == ' ' || c == '\t' || c == '\n' || c == '\r' || c == '\x0b' || c == '\x0c'

/-- ASCII letters `A-Za-z`, the letter class of the source's `[^A-Za-zñÑ\s]`. -/
def is_ascii_letter (c : Char) : Bool :=
  (65 ≤ c.toNat && c.toNat ≤ 90) || (97 ≤ c.toNat && c.toNat ≤ 122)

/-- Characters kept by the final filter of `_normalize_letters`. -/
def is_norm_keep (c : Char) : Bool :=
  is_ascii_letter c || c == 'ñ' || c == 'Ñ' || is_space c

/-- Lowercase letters `a-z` or `ñ`: the alphabet `[a-zñ]` kept by the cleanup
in `_join_with_smoothing` and allowed by the scorer. -/
def is_alpha_enye (c : Char) : Bool :=
  (97 ≤ c.toNat && c.toNat ≤ 122) || c == 'ñ'

/-- Uppercase characters reachable in final output: `A-Z` or `Ñ`. -/
def is_upper_char (c : Char) : Bool :=
  (65 ≤ c.toNat && c.toNat ≤ 90) || c == 'Ñ'

/-- Lowercase characters reachable in final output: `a-z` or `ñ`. -/
def is_lower_char (c : Char) : Bool :=
  (97 ≤ c.toNat && c.toNat ≤ 122) || c == 'ñ'

/-- Python `str.lower` restricted to the characters reachable in this program
(ASCII letters and `Ñ`; every other reachable character is fixed by `lower`). -/
def lower_char (c : Char) : Char :=
  if c = 'Ñ' then 'ñ'
  else if 65 ≤ c.toNat ∧ c.toNat ≤ 90 then Char.ofNat (c.toNat + 32)
  else c

/-- Python `str.upper` on a single character, restricted likewise. -/
def upper_char (c : Char) : Char :=
  if c = 'ñ' then 'Ñ'
  else if 97 ≤ c.toNat ∧ c.toNat ≤ 122 then Char.ofNat (c.toNat - 32)
  else c

/-- Source `_lower_ascii`: `s.lower()`. -/
def lower_ascii (s : Str) : Str := s.map lower_char

/-- Source `_strip_accents_keep_enye`.  The Unicode NFD decomposition lives outside
the repository; on every character produced by `_normalize_letters` (ASCII
letters, `ñ`/`Ñ`, space) decomposition is the identity and `ñ`/`Ñ` are passed
through unchanged by the special case, so on its actual domain the function
is the identity. -/
def strip_accents_keep_enye (s : Str) : Str := s

/-- Source `_titlecase_name`: empty stays empty, else first char uppercased and the
remainder lowercased. -/
def titlecase_name (s : Str) : Str :=
  match s with
  | [] => []
  | c :: rest => upper_char c :: lower_ascii rest

/-- Python `str.strip()`: drop leading and trailing whitespace. -/
def strip_ws (s : Str) : Str :=
  ((s.dropWhile is_space).reverse.dropWhile is_space).reverse

/-- Source `re.sub(r"\s+", " ", s)`: every maximal whitespace run becomes one space. -/
def collapse_ws : Str → Str
  | [] => []
  | [c] => if is_space c then [' '] else [c]
  | a :: b :: rest =>
    if is_space a ∧ is_space b then collapse_ws (b :: rest)
    else (if is_space a then ' ' else a) :: collapse_ws (b :: rest)

/-- Source `_normalize_letters`: strip, collapse whitespace, hyphens to spaces, then
keep only letters, `ñ`/`Ñ` and whitespace. -/
def normalize_letters (s : Str) : Str :=
  let s1 := strip_ws s
  let s2 := collapse_ws s1
  let s3 := s2.map (fun c => if c = '-' then ' ' else c)
  s3.filter is_norm_keep

/-- The compact form used throughout the generator:
`re.sub(r"\s+", "", _lower_ascii(_strip_accents_keep_enye(name)))`. -/
def compact_name (name : Str) : Str :=
  (lower_ascii (strip_accents_keep_enye name)).filter (fun c => !is_space c)

/-! ### The random source -/

/-- Explicit model of a seeded `random.Random` stream: an arbitrary sequence
of raw natural-number draws, a position, and an error flag that records a
draw CPython would have raised on (empty sequence / empty range). -/
structure Rng where
  stream : Nat → Nat
  idx : Nat
  err : Bool

/-- Draw the next raw value. -/
def Rng.next (r : Rng) : Nat × Rng :=
  (r.stream r.idx, { r with idx := r.idx + 1 })

/-- Mark the state as having raised. -/
def Rng.fail (r : Rng) : Rng := { r with err := true }

/-- Source `rng.choice(xs)`: uniform element of a nonempty sequence; raises on `[]`. -/
def Rng.choice {α : Type} [Inhabited α] (r : Rng) (xs : List α) : α × Rng :=
  if xs.length = 0 then (default, r.fail)
  else
    let (v, r2) := r.next
    (xs.getD (v % xs.length) default, r2)

/-- Source `rng.randrange(lo, hi)`: uniform in `[lo, hi)`; raises when the range is
empty. -/
def Rng.randrange (r : Rng) (lo hi : Nat) : Nat × Rng :=
  if hi ≤ lo then (lo, r.fail)
  else
    let (v, r2) := r.next
    (lo + v % (hi - lo), r2)

/-- Source `rng.randint(a, b)` = `randrange(a, b + 1)`. -/
def Rng.randint (r : Rng) (a b : Nat) : Nat × Rng :=
  r.randrange a (b + 1)

/-- Source `rng.random()`: a rational in `[0, 1)` (model granularity `10⁻⁶`). -/
def Rng.random (r : Rng) : ℚ × Rng :=
  let (v, r2) := r.next
  (((v % 1000000 : Nat) : ℚ) / 1000000, r2)

/-- Index selected by `random.choices`' cumulative-weight bisection: first
position whose cumulative weight exceeds the target. -/
def cum_index : List Nat → ℚ → Nat
  | [], _ => 0
  | w :: ws, t => if t < (w : ℚ) then 0 else 1 + cum_index ws (t - (w : ℚ))

/-- Source `rng.choices(population, weights, k=1)[0]`. -/
def Rng.choices_one {α : Type} [Inhabited α]
    (r : Rng) (population : List α) (weights : List Nat) : α × Rng :=
  if weights.sum = 0 ∨ population.length = 0 then (default, r.fail)
  else
    let (u, r2) := r.random
    (population.getD (cum_index weights (u * (weights.sum : ℚ))) default, r2)

/-- Fresh generator for a seed, as `random.Random(seed)`.  Modelled from the
spec: a seeded pseudo-random source created at the start of a call and
consumed deterministically (the Mersenne twister itself is outside the
repository); here a 64-bit linear congruential stream stands in for it. -/
def seed_stream (seed : Nat) (i : Nat) : Nat :=
  (fun x => (6364136223846793005 * x + 1442695040888963407) % (2 ^ 64))^[i + 1]
    (seed % (2 ^ 64))

/-- Source `random.Random(seed)`: fresh non-errored state. -/
def Rng.init (seed : Nat) : Rng := ⟨seed_stream seed, 0, false⟩

/-! ### Chunk extraction -/

/-- Lexicographic comparison of strings by code point (Python `<` on `str`). -/
def str_lt : Str → Str → Bool
  | [], [] => false
  | [], _ :: _ => true
  | _ :: _, [] => false
  | a :: as, b :: bs => if a = b then str_lt as bs else decide (a < b)

/-- The sort key ordering of `_syllableish_chunks`:
`(abs(len(x) - 3), -len(x), x)` compared lexicographically. -/
def chunk_le (a b : Str) : Bool :=
  let da := ((a.length : Int) - 3).natAbs
  let db := ((b.length : Int) - 3).natAbs
  if da ≠ db then decide (da < db)
  else if a.length ≠ b.length then decide (b.length < a.length)
  else !str_lt b a

/-- Stable insertion: `x` goes after every element `y` with `le y x`. -/
def insert_by {α : Type} (le : α → α → Bool) (x : α) : List α → List α
  | [] => [x]
  | y :: ys => if le y x then y :: insert_by le x ys else x :: y :: ys

/-- Stable insertion sort (the model of Python's stable `sorted`). -/
def sort_by {α : Type} (le : α → α → Bool) (l : List α) : List α :=
  l.foldl (fun acc x => insert_by le x acc) []

/-- Source `_syllableish_chunks`: windows of length 2–4 plus leading/trailing
slices, deduplicated and sorted by `chunk_le`. -/
def syllableish_chunks (name : Str) : List Str :=
  let n := compact_name name
  if n.length < 2 then (if n = [] then [] else [n])
  else
    let ps := (([2, 3, 4].filter (fun L => L ≤ n.length)).map
      (fun L => [n.take L, n.drop (n.length - L)])).flatten
    let ws := ([2, 3, 4].map (fun L =>
      (List.range' 1 (max 1 (n.length - L) - 1)).map
        (fun i => (n.drop i).take L))).flatten
    let chunks := ((ps ++ ws).dedup).filter (fun c => c ≠ [])
    sort_by chunk_le chunks

/-! ### Phonetic smoothing -/

/-- The set `VOWELS` (listed in the order `"aeiou"`). -/
def VOWELS : List Char := ['a', 'e', 'i', 'o', 'u']

/-- Source `ch in VOWELS`. -/
def is_vowel (c : Char) : Bool := VOWELS.contains c

/-- The set `ALPHABET` of lowercase ASCII letters. -/
def ALPHABET : List Char := String.toList "abcdefghijklmnopqrstuvwxyz"

/-- The cleanup at the top of `_join_with_smoothing`:
`re.sub(r"\s+", "", s)` followed by `re.sub(r"[^a-zñ]", "", s)`. -/
def clean_concat (parts : List Str) : Str :=
  ((parts.flatten).filter (fun c => !is_space c)).filter is_alpha_enye

/-- One left-to-right smoothing scan over a reversed accumulator: after each
emitted character, if the last three output characters are all consonants
(and none is `ñ`) a random vowel is inserted before the most recent one. -/
def smooth_pass_rev (rng : Rng) (acc : Str) : Str → Str × Rng
  | [] => (acc, rng)
  | ch :: rest =>
    let acc1 := ch :: acc
    match acc1 with
    | c :: b :: a :: tail =>
      if !is_vowel a && !is_vowel b && !is_vowel c
          && a != 'ñ' && b != 'ñ' && c != 'ñ' then
        let (v, rng2) := rng.choice VOWELS
        smooth_pass_rev rng2 (c :: v :: b :: a :: tail) rest
      else smooth_pass_rev rng acc1 rest
    | _ => smooth_pass_rev rng acc1 rest

/-- The consonant-cluster repair pass of `_join_with_smoothing`. -/
def smooth_pass (rng : Rng) (s : Str) : Str × Rng :=
  let (acc, rng2) := smooth_pass_rev rng [] s
  (acc.reverse, rng2)

/-- Emit one maximal run for `collapse_runs`: runs of three or more identical
characters are reduced to exactly two. -/
def run_emit (c : Char) (count : Nat) : Str := List.replicate (min count 2) c

/-- Helper for `collapse_runs`, carrying the current run character and its
length so far. -/
def collapse_runs_aux (c : Char) (count : Nat) : Str → Str
  | [] => run_emit c count
  | d :: rest =>
    if d = c then collapse_runs_aux c (count + 1) rest
    else run_emit c count ++ collapse_runs_aux d 1 rest

/-- Source `re.sub(r"(.)\1\1+", r"\1\1", s)`: collapse runs of 3+ repeats to 2. -/
def collapse_runs : Str → Str
  | [] => []
  | c :: rest => collapse_runs_aux c 1 rest

/-- Python `s.replace(pat, rep)`: left-to-right, non-overlapping. -/
def replace_all (pat rep : Str) : Str → Str
  | [] => []
  | c :: rest =>
    if h : pat ≠ [] ∧ pat.isPrefixOf (c :: rest) then
      rep ++ replace_all pat rep ((c :: rest).drop pat.length)
    else
      c :: replace_all pat rep rest
termination_by s => s.length
decreasing_by
  · simp only [List.length_drop]
    have : pat.length ≠ 0 := by
      intro hl; exact h.1 (List.eq_nil_of_length_eq_zero hl)
    simp [List.length_cons]; omega
  · simp [List.length_cons]

/-- Helper for `re.sub(r"j+h", "j", s)`, carrying the number of pending
`j` characters. -/
def sub_jh_aux : Nat → Str → Str
  | jcount, [] => List.replicate jcount 'j'
  | jcount, c :: rest =>
    if c = 'j' then sub_jh_aux (jcount + 1) rest
    else if c = 'h' ∧ 1 ≤ jcount then 'j' :: sub_jh_aux 0 rest
    else List.replicate jcount 'j' ++ c :: sub_jh_aux 0 rest

/-- Source `re.sub(r"j+h", "j", s)`: a maximal run of `j`s followed by `h` becomes
a single `j`. -/
def sub_jplus_h (s : Str) : Str := sub_jh_aux 0 s

/-- The `mode == "Normal"` tail of `_join_with_smoothing`. -/
def mode_normal_fix (s : Str) : Str :=
  sub_jplus_h (replace_all (String.toList "yy") (String.toList "y")
    (replace_all (String.toList "hh") (String.toList "h") s))

/-- The cultural prefixes drawn by the `"Veneco"` smoothing branch. -/
def VENECO_FIX_POOL : List Str :=
  (["jho", "jhon", "jhair", "maik", "yus", "deiv", "mayk"]).map String.toList

/-- Source `s = s[:pos] + ins + s[pos:]` at `pos = rng.randrange(lo, len(s))`. -/
def rand_insert_at (s : Str) (ins : Char) (lo : Nat) (rng : Rng) : Str × Rng :=
  let (pos, rng) := rng.randrange lo s.length
  (s.take pos ++ ins :: s.drop pos, rng)

/-- Second step of the `"Veneco"` smoothing tail: optional `y` insertion
(the random draw happens only when no `y` is present). -/
def veneco_stage2 (s : Str) (rng : Rng) : Str × Rng :=
  if !s.contains 'y' then
    let (u2, rng) := rng.random
    if u2 < 25 / 100 then rand_insert_at s 'y' 0 rng else (s, rng)
  else (s, rng)

/-- Third step of the `"Veneco"` smoothing tail: occasional replacement of
the leading character by a cultural prefix. -/
def veneco_stage3 (s : Str) (rng : Rng) : Str × Rng :=
  let (u3, rng) := rng.random
  if u3 < 18 / 100 then
    let (pref, rng) := rng.choice VENECO_FIX_POOL
    (pref ++ s.drop 1, rng)
  else (s, rng)

/-- The `mode == "Veneco"` tail of `_join_with_smoothing`. -/
def mode_veneco_fix (s : Str) (rng : Rng) : Str × Rng :=
  let (u1, rng) := rng.random
  let (s, rng) := if u1 < 18 / 100 then rand_insert_at s 'h' 1 rng else (s, rng)
  let (s, rng) := veneco_stage2 s rng
  veneco_stage3 s rng

/-- The disruptive prefixes of the `"Worst-case"` smoothing branch. -/
def WC_PREFIX_POOL : List Str :=
  (["yh", "jh", "nhy", "yhajh", "jha", "yha", "nh"]).map String.toList

/-- The disruptive suffixes of the `"Worst-case"` smoothing branch. -/
def WC_SUFFIX_POOL : List Str :=
  (["leth", "air", "eith", "x", "h", "th", "lynth"]).map String.toList

/-- The strings inserted by the `"Worst-case"` interior-insertion loop. -/
def WC_INSERT_POOL : List Str := (["h", "y", "jh"]).map String.toList

/-- One interior insertion of the `"Worst-case"` branch:
`s[:pos] + rng.choice(["h","y","jh"]) + s[pos:]` at `pos = randrange(1, len(s))`. -/
def wc_insert_once (s : Str) (rng : Rng) : Str × Rng :=
  let (pos, rng) := rng.randrange 1 s.length
  let (ins, rng) := rng.choice WC_INSERT_POOL
  (s.take pos ++ ins ++ s.drop pos, rng)

/-- The 1–3 random interior insertions of the `"Worst-case"` branch. -/
def wc_insert_loop (rng : Rng) (s : Str) : Nat → Str × Rng
  | 0 => (s, rng)
  | n + 1 =>
    let (s, rng) := wc_insert_once s rng
    wc_insert_loop rng s n

/-- The `mode == "Worst-case"` tail of `_join_with_smoothing`. -/
def mode_wc_fix (s : Str) (rng : Rng) : Str × Rng :=
  let (pref, rng) := rng.choice WC_PREFIX_POOL
  let s := pref ++ s
  let (cnt, rng) := rng.randint 1 3
  let (s, rng) := wc_insert_loop rng s cnt
  let (suf, rng) := rng.choice WC_SUFFIX_POOL
  let s := s ++ suf
  let s := replace_all (String.toList "qu") (String.toList "k") s
  let (sub, rng) := rng.choice ((["k", "s"]).map String.toList)
  (replace_all ['c'] sub s, rng)

/-- Source `_join_with_smoothing`: concatenate, clean, consonant-cluster repair,
run collapse, then the mode-specific tail (unknown modes fall through). -/
def join_with_smoothing (parts : List Str) (rng : Rng) (mode : String) :
    Str × Rng :=
  let s0 := clean_concat parts
  let (s1, rng) := smooth_pass rng s0
  let s := collapse_runs s1
  if mode = "Normal" then (mode_normal_fix s, rng)
  else if mode = "Veneco" then mode_veneco_fix s rng
  else if mode = "Worst-case" then mode_wc_fix s rng
  else (s, rng)

/-! ### Endings, scoring -/

/-- Source `_gender_endings`. -/
def gender_endings (gender mode : String) : List Str :=
  if mode = "Worst-case" then
    (["", "h", "th", "x", "leth"]).map String.toList
  else if gender = "M" then
    (["a", "y", "is", "any", "elis", "mar", "lis", "eth", "ia"]).map
      String.toList
  else
    (["o", "el", "en", "son", "iel", "is", "any", "mar"]).map String.toList

/-- A generated name with its score. -/
structure Candidate where
  name : Str
  score : ℚ
deriving DecidableEq

/-- The cultural morpheme list of `_score_name`. -/
def CULTURAL : List Str :=
  (["yus", "yub", "jhon", "maik", "mayk", "deiv", "jhair", "nath", "mar",
    "lis", "any", "eth", "yei", "yon"]).map String.toList

/-- Python substring containment `p in n`. -/
def is_infix_of (p : Str) : Str → Bool
  | [] => p.isPrefixOf []
  | c :: rest => p.isPrefixOf (c :: rest) || is_infix_of p rest

/-- Source `sum(1 for p in cultural if p in n)`. -/
def cultural_hits (n : Str) : Nat :=
  (CULTURAL.filter (fun p => is_infix_of p n)).length

/-- Source `n.startswith(tuple)`. -/
def starts_with_any (ps : List Str) (n : Str) : Bool :=
  ps.any (fun p => p.isPrefixOf n)

/-- Source `n.endswith(tuple)`. -/
def ends_with_any (ps : List Str) (n : Str) : Bool :=
  ps.any (fun p => p.isSuffixOf n)

/-- All length-3 windows `n[i:i+3]` for `i in range(len(n) - 2)`. -/
def windows3 : Str → List Str
  | a :: b :: c :: rest => [a, b, c] :: windows3 (b :: c :: rest)
  | _ => []

/-- Number of length-3 windows whose non-`ñ` characters are all non-vowels. -/
def tri_penalties (n : Str) : Nat :=
  ((windows3 n).filter (fun w => w.all (fun ch => ch == 'ñ' || !is_vowel ch))).length

/-- The disruptive leading digraphs checked by the scorer. -/
def LEAD_DIGRAPHS : List Str := (["yh", "jh", "nh"]).map String.toList

/-- Feminine-bias suffixes checked by the scorer. -/
def FEM_SUFFIX_CHECK : List Str :=
  (["a", "y", "is", "any", "eth", "lis", "mar", "elis", "ia"]).map String.toList

/-- Masculine-bias suffixes checked by the scorer. -/
def MASC_SUFFIX_CHECK : List Str :=
  (["o", "el", "en", "son", "iel", "is", "any", "mar"]).map String.toList

/-- Source `_score_name`. -/
def score_name (name : Str) (gender mode : String) : ℚ :=
  let n := lower_ascii name
  let length := n.length
  let base : ℚ := 0
  let base :=
    if mode ≠ "Worst-case" then
      if 5 ≤ length ∧ length ≤ 10 then base + 3
      else if 4 ≤ length ∧ length ≤ 12 then base + 3 / 2
      else base - 2
    else
      let base := if 10 ≤ length then base + 3 else base
      if 14 ≤ length then base + 2 else base
  let base :=
    if mode ≠ "Worst-case" then base - 9 / 10 * (tri_penalties n : ℚ) else base
  let hits := cultural_hits n
  let base :=
    if mode = "Veneco" then
      let base := base + 12 / 10 * (hits : ℚ)
      if starts_with_any LEAD_DIGRAPHS n then base + 6 / 10 else base
    else if mode = "Normal" then
      let base := base + 4 / 10 * (hits : ℚ)
      if starts_with_any LEAD_DIGRAPHS n then base - 1 else base
    else
      let base := base + 16 / 10 * (hits : ℚ)
      let base := if starts_with_any LEAD_DIGRAPHS n then base + 2 else base
      let base := if n.contains 'h' then base + 1 else base
      let base := if 1 ≤ n.count 'y' then base + 1 else base
      if ((["jh", "yhajh", "nhy"]).map String.toList).any
          (fun x => is_infix_of x n) then base + 2 else base
  let base :=
    if n.any (fun ch => !ALPHABET.contains ch && ch != 'ñ') then base - 10
    else base
  if mode ≠ "Worst-case" then
    let fem_bias := ends_with_any FEM_SUFFIX_CHECK n
    let masc_bias := ends_with_any MASC_SUFFIX_CHECK n
    let base := if gender = "M" ∧ fem_bias then base + 1 / 2 else base
    if gender = "H" ∧ masc_bias then base + 1 / 2 else base
  else base

/-! ### The generator -/

/-- Source `VENCO_PREFIXES_M`. -/
def VENCO_PREFIXES_M : List Str :=
  (["yus", "yub", "jhon", "jho", "jh", "jhair", "jha",
    "maik", "mayk", "deiv", "yei", "yon", "yoh", "jei",
    "dai", "day", "key", "kei"]).map String.toList

/-- Source `VENCO_PREFIXES_H`. -/
def VENCO_PREFIXES_H : List Str :=
  (["jhon", "jho", "jh", "yus", "maik", "mayk", "deiv",
    "jhair", "wil", "and", "bra", "kev", "yon", "yei",
    "dai", "day", "kei", "key"]).map String.toList

/-- Source `VENCO_SUFFIXES_M`. -/
def VENCO_SUFFIXES_M : List Str :=
  (["mar", "mary", "mari", "elis", "elys", "liss", "lis",
    "any", "aney", "eth", "eith", "y", "is", "nys", "dys",
    "a", "ia"]).map String.toList

/-- Source `VENCO_SUFFIXES_H`. -/
def VENCO_SUFFIXES_H : List Str :=
  (["son", "sone", "sen", "el", "iel", "en", "an", "is",
    "air", "er", "eth", "y", "n", "d", "o"]).map String.toList

/-- Source `VENCO_LINKERS`. -/
def VENCO_LINKERS : List Str :=
  (["a", "e", "i", "o", "u", "y", "h"]).map String.toList

/-- The fixed template triples of the non-Veneco combiner. -/
def PATTERNS : List (Nat × Nat × Nat) := [(1, 1, 0), (1, 0, 1), (0, 1, 1), (1, 1, 1)]

/-- The weighted templates of the Veneco combiner. -/
def VENECO_TEMPLATES : List String :=
  ["P+M", "F+S", "P+F+S", "P+M+S", "P+L+M", "F+L+S", "P+F", "M+S", "P+L+F+S"]

/-- The weights of `VENECO_TEMPLATES`. -/
def VENECO_WEIGHTS : List Nat := [16, 12, 14, 14, 10, 8, 10, 8, 8]

/-- Source `pick_prefix` inside `generate_names`: a uniform draw from the first
(up to) 12 chunks. -/
def pick_pref (rng : Rng) (chunks : List Str) : Str × Rng :=
  let c := chunks.take (min chunks.length 12)
  rng.choice c

/-- Source `pick_suffix_from_name` inside `generate_names`: the whole compact name
when short, else its last 2–4 characters. -/
def pick_suffix_from_name (rng : Rng) (name : Str) : Str × Rng :=
  let n := compact_name name
  if n.length ≤ 3 then (n, rng)
  else
    let (L, rng) := rng.choice [2, 3, 4]
    (n.drop (n.length - L), rng)

/-- Source `re.search(r"[qxz]{2,}", s)`: two adjacent characters from `{q, x, z}`. -/
def is_qxz (c : Char) : Bool := c == 'q' || c == 'x' || c == 'z'

/-- Whether `s` contains a run of two or more `q`/`x`/`z` characters. -/
def has_qxz_run : Str → Bool
  | a :: b :: rest => (is_qxz a && is_qxz b) || has_qxz_run (b :: rest)
  | _ => false

/-- The per-call context of the attempt loop of `generate_names` (everything
computed before the loop starts). -/
structure GenCtx where
  mother : Str
  gender : String
  mode : String
  f_chunks : List Str
  m_chunks : List Str
  endings : List Str
  v_pre : List Str
  v_suf : List Str
  f_norm : Str
  m_norm : Str

/-- One attempt's combination and smoothing: the body of the loop in
`generate_names` up to `name_raw`. -/
def build_attempt_name (ctx : GenCtx) (rng : Rng) : Str × Rng :=
  if ctx.mode = "Veneco" then
    let (template, rng) := rng.choices_one VENECO_TEMPLATES VENECO_WEIGHTS
    let (P, rng) := rng.choice ctx.v_pre
    let (S, rng) := rng.choice ctx.v_suf
    let (L, rng) := rng.choice VENCO_LINKERS
    let (F, rng) := pick_pref rng ctx.f_chunks
    let (u, rng) := rng.random
    let (M, rng) :=
      if u < 70 / 100 then pick_suffix_from_name rng ctx.mother
      else pick_pref rng ctx.m_chunks
    let parts :=
      if template = "P+M" then [P, M]
      else if template = "F+S" then [F, S]
      else if template = "P+F+S" then [P, F, S]
      else if template = "P+M+S" then [P, M, S]
      else if template = "P+L+M" then [P, L, M]
      else if template = "F+L+S" then [F, L, S]
      else if template = "P+F" then [P, F]
      else if template = "P+L+F+S" then [P, L, F, S]
      else [M, S]
    join_with_smoothing parts rng ctx.mode
  else
    let (pat, rng) := rng.choice PATTERNS
    let use_f := pat.1
    let use_m := pat.2.1
    let use_e := pat.2.2
    let parts : List Str := []
    let (parts, rng) :=
      if use_f ≠ 0 then
        let (x, rng) := pick_pref rng ctx.f_chunks
        (parts ++ [x], rng)
      else (parts, rng)
    let (parts, rng) :=
      if use_m ≠ 0 then
        let (u, rng) := rng.random
        let (x, rng) :=
          if u < 6 / 10 then pick_suffix_from_name rng ctx.mother
          else pick_pref rng ctx.m_chunks
        (parts ++ [x], rng)
      else (parts, rng)
    let (parts, rng) :=
      if use_e ≠ 0 then
        let (x, rng) := rng.choice ctx.endings
        (parts ++ [x], rng)
      else (parts, rng)
    join_with_smoothing parts rng ctx.mode

/-- Source `candidates.get(key)` on the insertion-ordered candidate map. -/
def cand_get (m : List Candidate) (key : Str) : Option Candidate :=
  m.find? (fun c => c.name == key)

/-- Source `candidates[key] = c`: replace in place, else append (dict insertion
order: a replaced key keeps its original position). -/
def cand_set (m : List Candidate) (key : Str) (c : Candidate) : List Candidate :=
  match m with
  | [] => [c]
  | d :: rest => if d.name == key then c :: rest else d :: cand_set rest key c

/-- One full iteration of the attempt loop: build a name, apply the rejection
guards, then keep the higher-scoring variant per unique string. -/
def attempt_step (ctx : GenCtx) (st : List Candidate × Rng) :
    List Candidate × Rng :=
  let (cands, rng) := st
  let (name_raw, rng) := build_attempt_name ctx rng
  if name_raw = [] ∨ name_raw.length < 4 then (cands, rng)
  else if ctx.mode ≠ "Worst-case" ∧ (name_raw = ctx.f_norm ∨ name_raw = ctx.m_norm) then
    (cands, rng)
  else if ctx.mode ≠ "Worst-case" ∧ has_qxz_run name_raw then (cands, rng)
  else
    let score := score_name name_raw ctx.gender ctx.mode
    match cand_get cands name_raw with
    | none => (cand_set cands name_raw ⟨name_raw, score⟩, rng)
    | some prev =>
      if prev.score < score then (cand_set cands name_raw ⟨name_raw, score⟩, rng)
      else (cands, rng)

/-- Source `for _ in range(attempts)`. -/
def run_attempts (ctx : GenCtx) : Nat → (List Candidate × Rng) → List Candidate × Rng
  | 0, st => st
  | n + 1, st => run_attempts ctx n (attempt_step ctx st)

/-- Everything `generate_names` computes before the attempt loop. -/
def mk_ctx (father mother : Str) (gender mode : String) : GenCtx :=
  let father := normalize_letters father
  let mother := normalize_letters mother
  { mother := mother
    gender := gender
    mode := mode
    f_chunks := syllableish_chunks father
    m_chunks := syllableish_chunks mother
    endings := gender_endings gender mode
    v_pre := if gender = "M" then VENCO_PREFIXES_M else VENCO_PREFIXES_H
    v_suf := if gender = "M" then VENCO_SUFFIXES_M else VENCO_SUFFIXES_H
    f_norm := compact_name father
    m_norm := compact_name mother }

/-- The candidate map produced by `generate_names` before ranking (empty when
either chunk set is empty), in dict insertion order. -/
def generate_candidates (rng : Rng) (father mother : Str)
    (gender mode : String) (k : Nat) : List Candidate × Rng :=
  let ctx := mk_ctx father mother gender mode
  if ctx.f_chunks = [] ∨ ctx.m_chunks = [] then ([], rng)
  else run_attempts ctx (max 320 (k * 90)) ([], rng)

/-- Comparison used to rank candidates: `y` stays before an inserted `x`
when `y`'s score is at least `x`'s (stable descending sort by score). -/
def cand_before (y x : Candidate) : Bool := decide (x.score ≤ y.score)

/-- The ranked candidate list `sorted(candidates.values(), key=score, reverse=True)`. -/
def generate_ranked (rng : Rng) (father mother : Str)
    (gender mode : String) (k : Nat) : List Candidate :=
  sort_by cand_before (generate_candidates rng father mother gender mode k).1

/-- Source `generate_names`, parametric in the random state; returns the output list
together with the final random state. -/
def generate_names_core (rng : Rng) (father mother : Str)
    (gender mode : String) (k : Nat) : List Str × Rng :=
  let (cands, rng2) := generate_candidates rng father mother gender mode k
  (((sort_by cand_before cands).take k).map (fun c => titlecase_name c.name), rng2)

/-- Source `generate_names(father, mother, gender, mode, k, seed)`: a fresh seeded
random state is created at the start of the call and consumed through it. -/
def generate_names (father mother : Str) (gender mode : String)
    (k seed : Nat) : List Str :=
  (generate_names_core (Rng.init seed) father mother gender mode k).1

/-! ### Character lemmas -/

/-- The 27 lowercase characters of the generator's alphabet. -/
def LOWER_ALPHA : List Char := String.toList "abcdefghijklmnopqrstuvwxyzñ"

theorem alpha_char_mem {c : Char} (h : is_alpha_enye c = true) :
    c ∈ LOWER_ALPHA := by
  simp only [is_alpha_enye, Bool.or_eq_true, Bool.and_eq_true,
    decide_eq_true_eq, beq_iff_eq] at h
  rcases h with ⟨h1, h2⟩ | rfl
  · obtain ⟨n, hn, hn1, hn2⟩ : ∃ n, c.toNat = n ∧ 97 ≤ n ∧ n ≤ 122 :=
      ⟨_, rfl, h1, h2⟩
    have hc := Char.ofNat_toNat c
    rw [hn] at hc
    interval_cases n <;> (rw [← hc]; decide)
  · decide

theorem lower_upper_id {c : Char} (h : is_alpha_enye c = true) :
    lower_char (upper_char c) = c := by
  have := alpha_char_mem h
  fin_cases this <;> decide

theorem lower_id_of_alpha {c : Char} (h : is_alpha_enye c = true) :
    lower_char c = c := by
  have := alpha_char_mem h
  fin_cases this <;> decide

theorem upper_is_upper {c : Char} (h : is_alpha_enye c = true) :
    is_upper_char (upper_char c) = true := by
  have := alpha_char_mem h
  fin_cases this <;> decide

theorem alpha_not_space {c : Char} (h : is_alpha_enye c = true) :
    is_space c = false := by
  have := alpha_char_mem h
  fin_cases this <;> decide

theorem upper_char_inj {c d : Char} (hc : is_alpha_enye c = true)
    (hd : is_alpha_enye d = true) (h : upper_char c = upper_char d) : c = d := by
  have := lower_upper_id hc
  rw [h, lower_upper_id hd] at this
  exact this.symm

/-! ### String-level casing lemmas -/

theorem lower_ascii_id_of_alpha {s : Str} (h : s.all is_alpha_enye = true) :
    lower_ascii s = s := by
  induction s with
  | nil => rfl
  | cons c rest ih =>
    simp only [List.all_cons, Bool.and_eq_true] at h
    simp [lower_ascii, List.map_cons, lower_id_of_alpha h.1]
    simpa [lower_ascii] using ih h.2

theorem filter_nonspace_id_of_alpha {s : Str} (h : s.all is_alpha_enye = true) :
    s.filter (fun c => !is_space c) = s := by
  induction s with
  | nil => rfl
  | cons c rest ih =>
    simp only [List.all_cons, Bool.and_eq_true] at h
    simp [List.filter_cons, alpha_not_space h.1, ih h.2]

theorem compact_titlecase {s : Str} (h : s.all is_alpha_enye = true) :
    compact_name (titlecase_name s) = s := by
  cases s with
  | nil => rfl
  | cons c rest =>
    simp only [List.all_cons, Bool.and_eq_true] at h
    have hrest : lower_ascii rest = rest := lower_ascii_id_of_alpha h.2
    simp only [titlecase_name, compact_name, strip_accents_keep_enye,
      lower_ascii, List.map_cons]
    rw [show (lower_char (upper_char c)) = c from lower_upper_id h.1]
    have hmap : rest.map lower_char = rest := by
      have := hrest; simpa [lower_ascii] using this
    rw [hmap, hmap]
    exact filter_nonspace_id_of_alpha (by simp [List.all_cons, h.1, h.2])

theorem titlecase_inj {a b : Str} (ha : a.all is_alpha_enye = true)
    (hb : b.all is_alpha_enye = true) (h : titlecase_name a = titlecase_name b) :
    a = b := by
  have := compact_titlecase ha
  rw [h, compact_titlecase hb] at this
  exact this.symm

/-- Title-cased shape: nonempty, uppercase head, lowercase tail. -/
def is_titlecased (s : Str) : Bool :=
  match s with
  | [] => false
  | c :: rest => is_upper_char c && rest.all is_lower_char

theorem titlecase_is_titlecased {s : Str} (h : s.all is_alpha_enye = true)
    (hne : s ≠ []) : is_titlecased (titlecase_name s) = true := by
  cases s with
  | nil => exact absurd rfl hne
  | cons c rest =>
    simp only [List.all_cons, Bool.and_eq_true] at h
    simp only [titlecase_name, is_titlecased, Bool.and_eq_true]
    refine ⟨upper_is_upper h.1, ?_⟩
    rw [lower_ascii_id_of_alpha h.2]
    have : ∀ x ∈ rest, is_lower_char x = true := by
      intro x hx
      have := List.all_eq_true.mp h.2 x hx
      simpa [is_lower_char, is_alpha_enye] using this
    exact List.all_eq_true.mpr this

/-! ### Sorting lemmas -/

theorem insert_by_perm {α : Type} (le : α → α → Bool) (x : α) (l : List α) :
    (insert_by le x l).Perm (x :: l) := by
  induction l with
  | nil => exact List.Perm.refl _
  | cons y ys ih =>
    simp only [insert_by]
    split
    · exact ((ih.cons y).trans (List.Perm.swap x y ys))
    · exact List.Perm.refl _

theorem sort_by_perm_aux {α : Type} (le : α → α → Bool) :
    ∀ (l acc : List α),
      (l.foldl (fun a x => insert_by le x a) acc).Perm (acc ++ l)
  | [], acc => by simp
  | x :: l, acc => by
    simp only [List.foldl_cons]
    have h1 := sort_by_perm_aux le l (insert_by le x acc)
    have h2 : (insert_by le x acc ++ l).Perm (acc ++ x :: l) := by
      refine ((insert_by_perm le x acc).append_right l).trans ?_
      exact (List.perm_middle).symm
    exact h1.trans h2

theorem sort_by_perm {α : Type} (le : α → α → Bool) (l : List α) :
    (sort_by le l).Perm l := by
  simpa [sort_by] using sort_by_perm_aux le l []

theorem mem_insert_by {α : Type} {le : α → α → Bool} {x z : α} {l : List α} :
    z ∈ insert_by le x l ↔ z = x ∨ z ∈ l := by
  rw [(insert_by_perm le x l).mem_iff]
  simp

theorem cand_before_iff {y x : Candidate} :
    cand_before y x = true ↔ x.score ≤ y.score := by
  simp [cand_before]

theorem insert_cand_sorted {x : Candidate} {l : List Candidate}
    (hl : l.Pairwise (fun a b => b.score ≤ a.score)) :
    (insert_by cand_before x l).Pairwise (fun a b => b.score ≤ a.score) := by
  induction l with
  | nil => simp [insert_by]
  | cons y ys ih =>
    rcases List.pairwise_cons.mp hl with ⟨hy, hys⟩
    simp only [insert_by]
    by_cases hc : cand_before y x = true
    · rw [if_pos hc]
      refine List.pairwise_cons.mpr ⟨?_, ih hys⟩
      intro z hz
      rcases mem_insert_by.mp hz with rfl | hz
      · exact cand_before_iff.mp hc
      · exact hy z hz
    · rw [if_neg hc]
      have hxy : y.score ≤ x.score := by
        rcases le_total x.score y.score with h | h
        · exact absurd (cand_before_iff.mpr h) hc
        · exact h
      refine List.pairwise_cons.mpr ⟨?_, hl⟩
      intro z hz
      rcases List.mem_cons.mp hz with rfl | hz
      · exact hxy
      · exact le_trans (hy z hz) hxy

theorem sort_by_cand_sorted_aux :
    ∀ (l acc : List Candidate),
      acc.Pairwise (fun a b => b.score ≤ a.score) →
      (l.foldl (fun a x => insert_by cand_before x a) acc).Pairwise
        (fun a b => b.score ≤ a.score)
  | [], _, hacc => hacc
  | x :: l, acc, hacc => by
    simp only [List.foldl_cons]
    exact sort_by_cand_sorted_aux l _ (insert_cand_sorted hacc)

theorem sort_by_cand_sorted (l : List Candidate) :
    (sort_by cand_before l).Pairwise (fun a b => b.score ≤ a.score) := by
  simpa [sort_by] using sort_by_cand_sorted_aux l [] (by simp)

theorem insert_cand_filter (q : ℚ) {x : Candidate} {l : List Candidate}
    (hl : l.Pairwise (fun a b => b.score ≤ a.score)) :
    (insert_by cand_before x l).filter (fun c => decide (c.score = q))
      = l.filter (fun c => decide (c.score = q))
        ++ (if x.score = q then [x] else []) := by
  induction l with
  | nil =>
    by_cases hx : x.score = q <;> simp [insert_by, List.filter, hx]
  | cons y ys ih =>
    rcases List.pairwise_cons.mp hl with ⟨hy, hys⟩
    simp only [insert_by]
    by_cases hc : cand_before y x = true
    · rw [if_pos hc]
      by_cases hyq : y.score = q <;>
        simp [List.filter_cons, hyq, ih hys, List.append_assoc]
    · rw [if_neg hc]
      have hlt : y.score < x.score := by
        rcases lt_or_le y.score x.score with h | h
        · exact h
        · exact absurd (cand_before_iff.mpr h) hc
      by_cases hx : x.score = q
      · have hnil : (y :: ys).filter (fun c => decide (c.score = q)) = [] := by
          rw [List.filter_eq_nil_iff]
          intro c hcmem
          have hle : c.score ≤ y.score := by
            rcases List.mem_cons.mp hcmem with rfl | hmem
            · exact le_refl _
            · exact hy c hmem
          have : c.score < q := lt_of_le_of_lt hle (hx ▸ hlt)
          simp [ne_of_lt this]
        simp [List.filter_cons, hx, hnil]
      · simp [List.filter_cons, hx]

theorem sort_by_cand_filter_aux (q : ℚ) :
    ∀ (l acc : List Candidate),
      acc.Pairwise (fun a b => b.score ≤ a.score) →
      (l.foldl (fun a x => insert_by cand_before x a) acc).filter
          (fun c => decide (c.score = q))
        = acc.filter (fun c => decide (c.score = q))
          ++ l.filter (fun c => decide (c.score = q))
  | [], acc, _ => by simp
  | x :: l, acc, hacc => by
    simp only [List.foldl_cons]
    rw [sort_by_cand_filter_aux q l _ (insert_cand_sorted hacc),
      insert_cand_filter q hacc]
    by_cases hx : x.score = q <;> simp [List.filter_cons, hx]

theorem sort_by_cand_filter (q : ℚ) (l : List Candidate) :
    (sort_by cand_before l).filter (fun c => decide (c.score = q))
      = l.filter (fun c => decide (c.score = q)) := by
  simpa [sort_by] using sort_by_cand_filter_aux q l [] (by simp)

/-! ### Random-source lemmas -/

theorem next_err (r : Rng) : (r.next).2.err = r.err := rfl

theorem random_err (r : Rng) : (r.random).2.err = r.err := rfl

theorem choice_err {α : Type} [Inhabited α] {xs : List α} (h : xs ≠ [])
    (r : Rng) : ((r.choice xs).2).err = r.err := by
  have hlen : xs.length ≠ 0 := fun hl => h (List.eq_nil_of_length_eq_zero hl)
  simp [Rng.choice, hlen, Rng.next]

theorem choice_mem {α : Type} [Inhabited α] {xs : List α} (h : xs ≠ [])
    (r : Rng) : (r.choice xs).1 ∈ xs := by
  have hlen : xs.length ≠ 0 := fun hl => h (List.eq_nil_of_length_eq_zero hl)
  simp only [Rng.choice, if_neg hlen]
  have hlt : ((r.next).1 % xs.length) < xs.length :=
    Nat.mod_lt _ (Nat.pos_of_ne_zero hlen)
  rw [List.getD_eq_getElem _ _ hlt]
  exact List.getElem_mem hlt

theorem randrange_err {lo hi : Nat} (h : lo < hi) (r : Rng) :
    ((r.randrange lo hi).2).err = r.err := by
  simp [Rng.randrange, Nat.not_le.mpr h, Rng.next]

theorem randrange_lt {lo hi : Nat} (h : lo < hi) (r : Rng) :
    (r.randrange lo hi).1 < hi := by
  simp only [Rng.randrange, if_neg (Nat.not_le.mpr h)]
  have : (r.next).1 % (hi - lo) < hi - lo := Nat.mod_lt _ (by omega)
  omega

theorem randint_err {a b : Nat} (h : a ≤ b) (r : Rng) :
    ((r.randint a b).2).err = r.err :=
  randrange_err (by omega) r

theorem choices_one_err {α : Type} [Inhabited α] {population : List α}
    {weights : List Nat} (hw : weights.sum ≠ 0) (hp : population.length ≠ 0)
    (r : Rng) : ((r.choices_one population weights).2).err = r.err := by
  simp [Rng.choices_one, hw, hp, Rng.random, Rng.next]

/-! ### Alphabet preservation through smoothing -/

/-- Every character of the string is in the generator's alphabet `[a-zñ]`. -/
def alphaStr (s : Str) : Prop := ∀ c ∈ s, is_alpha_enye c = true

theorem alphaStr_iff_all {s : Str} : alphaStr s ↔ s.all is_alpha_enye = true := by
  simp [alphaStr, List.all_eq_true]

theorem alphaStr_append {a b : Str} (ha : alphaStr a) (hb : alphaStr b) :
    alphaStr (a ++ b) := by
  intro c hc
  rcases List.mem_append.mp hc with h | h
  · exact ha c h
  · exact hb c h

theorem alphaStr_take (n : Nat) {s : Str} (hs : alphaStr s) :
    alphaStr (s.take n) := fun c hc => hs c (List.take_subset n s hc)

theorem alphaStr_drop (n : Nat) {s : Str} (hs : alphaStr s) :
    alphaStr (s.drop n) := fun c hc => hs c (List.drop_subset n s hc)

theorem alphaStr_clean_concat (parts : List Str) : alphaStr (clean_concat parts) := by
  intro c hc
  exact (List.mem_filter.mp hc).2

theorem alphaStr_vowels : alphaStr VOWELS := by
  intro c hc
  simp only [VOWELS, List.mem_cons, List.not_mem_nil, or_false] at hc
  rcases hc with rfl | rfl | rfl | rfl | rfl <;> decide

theorem alphaStr_smooth_pass_rev :
    ∀ (l acc : Str) (rng : Rng), alphaStr acc → alphaStr l →
      alphaStr (smooth_pass_rev rng acc l).1
  | [], _, _, hacc, _ => hacc
  | ch :: rest, acc, rng, hacc, hl => by
    have hch : is_alpha_enye ch = true := hl ch (List.mem_cons_self _ _)
    have hrest : alphaStr rest := fun c hc => hl c (List.mem_cons_of_mem _ hc)
    have hacc1 : alphaStr (ch :: acc) := by
      intro c hc
      rcases List.mem_cons.mp hc with rfl | hc
      · exact hch
      · exact hacc c hc
    cases acc with
    | nil => exact alphaStr_smooth_pass_rev rest [ch] rng hacc1 hrest
    | cons b0 acc2 =>
      cases acc2 with
      | nil => exact alphaStr_smooth_pass_rev rest [ch, b0] rng hacc1 hrest
      | cons a0 tail =>
        have hstep : smooth_pass_rev rng (b0 :: a0 :: tail) (ch :: rest)
            = if (!is_vowel a0 && !is_vowel b0 && !is_vowel ch
                  && a0 != 'ñ' && b0 != 'ñ' && ch != 'ñ')
              then smooth_pass_rev (rng.choice VOWELS).2
                (ch :: (rng.choice VOWELS).1 :: b0 :: a0 :: tail) rest
              else smooth_pass_rev rng (ch :: b0 :: a0 :: tail) rest := rfl
        rw [hstep]
        split
        · have hv : is_alpha_enye (rng.choice VOWELS).1 = true :=
            alphaStr_vowels _ (choice_mem (by decide) rng)
          refine alphaStr_smooth_pass_rev rest _ _ ?_ hrest
          intro c hc
          rcases List.mem_cons.mp hc with rfl | hc
          · exact hch
          rcases List.mem_cons.mp hc with rfl | hc
          · exact hv
          · exact hacc c hc
        · exact alphaStr_smooth_pass_rev rest _ _ hacc1 hrest

theorem alphaStr_smooth_pass {s : Str} (hs : alphaStr s) (rng : Rng) :
    alphaStr (smooth_pass rng s).1 := by
  simp only [smooth_pass]
  intro c hc
  rw [List.mem_reverse] at hc
  exact alphaStr_smooth_pass_rev s [] rng (by intro c hc; simp at hc) hs c hc

theorem mem_run_emit {x c : Char} {k : Nat} (h : x ∈ run_emit c k) : x = c :=
  List.eq_of_mem_replicate h

theorem mem_collapse_runs_aux :
    ∀ (l : Str) (c : Char) (k : Nat) (x : Char),
      x ∈ collapse_runs_aux c k l → x = c ∨ x ∈ l
  | [], c, k, x, h => Or.inl (mem_run_emit h)
  | d :: rest, c, k, x, h => by
    rw [collapse_runs_aux] at h
    split at h
    · rcases mem_collapse_runs_aux rest c (k + 1) x h with h | h
      · exact Or.inl h
      · exact Or.inr (List.mem_cons_of_mem _ h)
    · rcases List.mem_append.mp h with h | h
      · exact Or.inl (mem_run_emit h)
      · rcases mem_collapse_runs_aux rest d 1 x h with rfl | h
        · exact Or.inr (List.mem_cons_self _ _)
        · exact Or.inr (List.mem_cons_of_mem _ h)

theorem mem_collapse_runs {l : Str} {x : Char} (h : x ∈ collapse_runs l) :
    x ∈ l := by
  cases l with
  | nil => simpa [collapse_runs] using h
  | cons c rest =>
    rw [collapse_runs] at h
    rcases mem_collapse_runs_aux rest c 1 x h with rfl | h
    · exact List.mem_cons_self _ _
    · exact List.mem_cons_of_mem _ h

theorem alphaStr_collapse_runs {l : Str} (hl : alphaStr l) :
    alphaStr (collapse_runs l) := fun c hc => hl c (mem_collapse_runs hc)

theorem mem_replace_all (pat rep : Str) (s : Str) (x : Char)
    (hmem : x ∈ replace_all pat rep s) : x ∈ rep ∨ x ∈ s := by
  induction s using replace_all.induct pat rep with
  | case1 =>
    rw [replace_all] at hmem
    simp at hmem
  | case2 c rest hcond ih =>
    rw [replace_all, dif_pos hcond] at hmem
    rcases List.mem_append.mp hmem with h | h
    · exact Or.inl h
    · rcases ih h with h | h
      · exact Or.inl h
      · exact Or.inr (List.drop_subset _ _ h)
  | case3 c rest hcond ih =>
    rw [replace_all, dif_neg hcond] at hmem
    rcases List.mem_cons.mp hmem with rfl | h
    · exact Or.inr (List.mem_cons_self _ _)
    · rcases ih h with h | h
      · exact Or.inl h
      · exact Or.inr (List.mem_cons_of_mem _ h)

theorem mem_sub_jh_aux :
    ∀ (l : Str) (k : Nat) (x : Char), x ∈ sub_jh_aux k l → x = 'j' ∨ x ∈ l
  | [], k, x, h => Or.inl (List.eq_of_mem_replicate (by rw [sub_jh_aux] at h; exact h))
  | c :: rest, k, x, h => by
    rw [sub_jh_aux] at h
    split at h
    · rcases mem_sub_jh_aux rest (k + 1) x h with h | h
      · exact Or.inl h
      · exact Or.inr (List.mem_cons_of_mem _ h)
    · split at h
      · rcases List.mem_cons.mp h with rfl | h
        · exact Or.inl rfl
        · rcases mem_sub_jh_aux rest 0 x h with h | h
          · exact Or.inl h
          · exact Or.inr (List.mem_cons_of_mem _ h)
      · rcases List.mem_append.mp h with h | h
        · exact Or.inl (List.eq_of_mem_replicate h)
        · rcases List.mem_cons.mp h with rfl | h
          · exact Or.inr (List.mem_cons_self _ _)
          · rcases mem_sub_jh_aux rest 0 x h with h | h
            · exact Or.inl h
            · exact Or.inr (List.mem_cons_of_mem _ h)

theorem alphaStr_mode_normal_fix {s : Str} (hs : alphaStr s) :
    alphaStr (mode_normal_fix s) := by
  intro x hx
  rcases mem_sub_jh_aux _ 0 x hx with rfl | hx
  · decide
  rcases mem_replace_all _ _ _ x hx with hx | hx
  · rcases show x = 'y' by simpa [String.toList] using hx with rfl
    decide
  rcases mem_replace_all _ _ _ x hx with hx | hx
  · rcases show x = 'h' by simpa [String.toList] using hx with rfl
    decide
  · exact hs x hx

theorem alphaStr_cons {c : Char} {l : Str} (hc : is_alpha_enye c = true)
    (hl : alphaStr l) : alphaStr (c :: l) := by
  intro x hx
  rcases List.mem_cons.mp hx with rfl | hx
  · exact hc
  · exact hl x hx

theorem rand_insert_at_eq (s : Str) (ins : Char) (lo : Nat) (rng : Rng) :
    rand_insert_at s ins lo rng
      = (s.take (rng.randrange lo s.length).1 ++ ins
          :: s.drop (rng.randrange lo s.length).1,
         (rng.randrange lo s.length).2) := rfl

theorem alphaStr_rand_insert_at {s : Str} (hs : alphaStr s) {ins : Char}
    (hins : is_alpha_enye ins = true) (lo : Nat) (rng : Rng) :
    alphaStr (rand_insert_at s ins lo rng).1 := by
  rw [rand_insert_at_eq]
  exact alphaStr_append (alphaStr_take _ hs) (alphaStr_cons hins (alphaStr_drop _ hs))

theorem veneco_stage2_eq (s : Str) (rng : Rng) :
    veneco_stage2 s rng
      = if !s.contains 'y' then
          (if (rng.random).1 < 25 / 100 then rand_insert_at s 'y' 0 (rng.random).2
           else (s, (rng.random).2))
        else (s, rng) := rfl

theorem alphaStr_veneco_stage2 {s : Str} (hs : alphaStr s) (rng : Rng) :
    alphaStr (veneco_stage2 s rng).1 := by
  rw [veneco_stage2_eq]
  split
  · split
    · exact alphaStr_rand_insert_at hs (by decide) 0 _
    · exact hs
  · exact hs

theorem alphaStr_pool {pool : List Str}
    (hpool : ∀ p ∈ pool, p.all is_alpha_enye = true) {p : Str} (hp : p ∈ pool) :
    alphaStr p := by
  intro c hc
  exact List.all_eq_true.mp (hpool p hp) c hc

theorem veneco_stage3_eq (s : Str) (rng : Rng) :
    veneco_stage3 s rng
      = if (rng.random).1 < 18 / 100 then
          (((rng.random).2.choice VENECO_FIX_POOL).1 ++ s.drop 1,
           ((rng.random).2.choice VENECO_FIX_POOL).2)
        else (s, (rng.random).2) := rfl

theorem alphaStr_veneco_stage3 {s : Str} (hs : alphaStr s) (rng : Rng) :
    alphaStr (veneco_stage3 s rng).1 := by
  rw [veneco_stage3_eq]
  split
  · refine alphaStr_append ?_ (alphaStr_drop 1 hs)
    exact alphaStr_pool (by decide) (choice_mem (by decide) _)
  · exact hs

theorem mode_veneco_fix_eq (s : Str) (rng : Rng) :
    mode_veneco_fix s rng
      = (let st1 := if (rng.random).1 < 18 / 100
            then rand_insert_at s 'h' 1 (rng.random).2
            else (s, (rng.random).2)
         let st2 := veneco_stage2 st1.1 st1.2
         veneco_stage3 st2.1 st2.2) := rfl

theorem alphaStr_mode_veneco_fix {s : Str} (hs : alphaStr s) (rng : Rng) :
    alphaStr (mode_veneco_fix s rng).1 := by
  rw [mode_veneco_fix_eq]
  refine alphaStr_veneco_stage3 (alphaStr_veneco_stage2 ?_ _) _
  split
  · exact alphaStr_rand_insert_at hs (by decide) 1 _
  · exact hs

theorem wc_insert_once_eq (s : Str) (rng : Rng) :
    wc_insert_once s rng
      = (s.take (rng.randrange 1 s.length).1
          ++ ((rng.randrange 1 s.length).2.choice WC_INSERT_POOL).1
          ++ s.drop (rng.randrange 1 s.length).1,
         ((rng.randrange 1 s.length).2.choice WC_INSERT_POOL).2) := rfl

theorem alphaStr_wc_insert_once {s : Str} (hs : alphaStr s) (rng : Rng) :
    alphaStr (wc_insert_once s rng).1 := by
  rw [wc_insert_once_eq]
  refine alphaStr_append (alphaStr_append (alphaStr_take _ hs) ?_)
    (alphaStr_drop _ hs)
  exact alphaStr_pool (by decide) (choice_mem (by decide) _)

theorem alphaStr_wc_insert_loop :
    ∀ (n : Nat) {s : Str} (rng : Rng), alphaStr s →
      alphaStr (wc_insert_loop rng s n).1
  | 0, _, _, hs => hs
  | n + 1, s, rng, hs => by
    rw [show wc_insert_loop rng s (n + 1)
        = wc_insert_loop (wc_insert_once s rng).2 (wc_insert_once s rng).1 n
      from rfl]
    exact alphaStr_wc_insert_loop n _ (alphaStr_wc_insert_once hs rng)

theorem mode_wc_fix_eq (s : Str) (rng : Rng) :
    mode_wc_fix s rng
      = (let a1 := rng.choice WC_PREFIX_POOL
         let s1 := a1.1 ++ s
         let a2 := a1.2.randint 1 3
         let st := wc_insert_loop a2.2 s1 a2.1
         let a3 := st.2.choice WC_SUFFIX_POOL
         let s2 := st.1 ++ a3.1
         let s3 := replace_all (String.toList "qu") (String.toList "k") s2
         let a4 := a3.2.choice ((["k", "s"]).map String.toList)
         (replace_all ['c'] a4.1 s3, a4.2)) := rfl

theorem alphaStr_replace_all {pat rep s : Str} (hrep : alphaStr rep)
    (hs : alphaStr s) : alphaStr (replace_all pat rep s) := by
  intro x hx
  rcases mem_replace_all pat rep s x hx with h | h
  · exact hrep x h
  · exact hs x h

theorem alphaStr_mode_wc_fix {s : Str} (hs : alphaStr s) (rng : Rng) :
    alphaStr (mode_wc_fix s rng).1 := by
  rw [mode_wc_fix_eq]
  refine alphaStr_replace_all ?_
    (alphaStr_replace_all (alphaStr_iff_all.mpr (by decide)) ?_)
  · exact alphaStr_pool (by decide) (choice_mem (by decide) _)
  · refine alphaStr_append (alphaStr_wc_insert_loop _ _ ?_) ?_
    · refine alphaStr_append ?_ hs
      exact alphaStr_pool (by decide) (choice_mem (by decide) _)
    · exact alphaStr_pool (by decide) (choice_mem (by decide) _)

theorem join_with_smoothing_eq (parts : List Str) (rng : Rng) (mode : String) :
    join_with_smoothing parts rng mode
      = (let st := smooth_pass rng (clean_concat parts)
         let s := collapse_runs st.1
         if mode = "Normal" then (mode_normal_fix s, st.2)
         else if mode = "Veneco" then mode_veneco_fix s st.2
         else if mode = "Worst-case" then mode_wc_fix s st.2
         else (s, st.2)) := rfl

theorem alphaStr_join_with_smoothing (parts : List Str) (rng : Rng)
    (mode : String) : alphaStr (join_with_smoothing parts rng mode).1 := by
  rw [join_with_smoothing_eq]
  have hbase : alphaStr (collapse_runs (smooth_pass rng (clean_concat parts)).1) :=
    alphaStr_collapse_runs (alphaStr_smooth_pass (alphaStr_clean_concat parts) rng)
  split
  · exact alphaStr_mode_normal_fix hbase
  split
  · exact alphaStr_mode_veneco_fix hbase _
  split
  · exact alphaStr_mode_wc_fix hbase _
  · exact hbase

theorem build_attempt_name_alpha (ctx : GenCtx) (rng : Rng) :
    alphaStr (build_attempt_name ctx rng).1 := by
  obtain ⟨parts, rng2, heq⟩ : ∃ parts rng2,
      build_attempt_name ctx rng = join_with_smoothing parts rng2 ctx.mode := by
    unfold build_attempt_name
    split
    · exact ⟨_, _, rfl⟩
    · exact ⟨_, _, rfl⟩
  rw [heq]
  exact alphaStr_join_with_smoothing _ _ _

/-! ### Characters surviving normalization -/

/-- Characters that can appear in `_normalize_letters` output: letters,
`ñ`/`Ñ`, and the single space (never any other whitespace). -/
def is_norm_char (c : Char) : Bool :=
  is_ascii_letter c || c == 'ñ' || c == 'Ñ' || c == ' '

theorem mem_collapse_ws :
    ∀ (l : Str) (x : Char), x ∈ collapse_ws l →
      x = ' ' ∨ (x ∈ l ∧ is_space x = false)
  | [], x, h => by simp [collapse_ws] at h
  | [c], x, h => by
    rw [collapse_ws] at h
    split at h
    · exact Or.inl (List.mem_singleton.mp h)
    · rcases List.mem_singleton.mp h with rfl
      rename_i hns
      exact Or.inr ⟨List.mem_singleton.mpr rfl, by simpa using hns⟩
  | a :: b :: rest, x, h => by
    rw [collapse_ws] at h
    split at h
    · rcases mem_collapse_ws (b :: rest) x h with h | ⟨hmem, hns⟩
      · exact Or.inl h
      · exact Or.inr ⟨List.mem_cons_of_mem _ hmem, hns⟩
    · rcases List.mem_cons.mp h with rfl | h
      · by_cases hsa : is_space a = true
        · exact Or.inl (by simp [hsa])
        · refine Or.inr ?_
          rw [if_neg hsa]
          exact ⟨List.mem_cons_self _ _, by simpa using hsa⟩
      · rcases mem_collapse_ws (b :: rest) x h with h | ⟨hmem, hns⟩
        · exact Or.inl h
        · exact Or.inr ⟨List.mem_cons_of_mem _ hmem, hns⟩

theorem normalize_letters_chars (s : Str) :
    ∀ c ∈ normalize_letters s, is_norm_char c = true := by
  intro c hc
  unfold normalize_letters at hc
  obtain ⟨hmem, hkeep⟩ := List.mem_filter.mp hc
  obtain ⟨d, hd, hdc⟩ := List.mem_map.mp hmem
  rcases mem_collapse_ws _ d hd with rfl | ⟨_, hdns⟩
  · rw [if_neg (by decide)] at hdc
    rw [← hdc]
    decide
  · by_cases hd2 : d = '-'
    · rw [if_pos hd2] at hdc
      rw [← hdc]
      decide
    · rw [if_neg hd2] at hdc
      subst hdc
      simp only [is_norm_keep, Bool.or_eq_true] at hkeep
      rcases hkeep with ((h | h) | h) | h
      · simp [is_norm_char, h]
      · simp [is_norm_char, h]
      · simp [is_norm_char, h]
      · rw [h] at hdns
        exact absurd hdns (by simp)

theorem lower_of_norm {d : Char} (h : is_norm_char d = true) :
    is_alpha_enye (lower_char d) = true ∨ lower_char d = ' ' := by
  simp only [is_norm_char, is_ascii_letter, Bool.or_eq_true, Bool.and_eq_true,
    decide_eq_true_eq, beq_iff_eq] at h
  rcases h with (((⟨h1, h2⟩ | ⟨h1, h2⟩) | rfl) | rfl) | rfl
  · obtain ⟨n, hn, hn1, hn2⟩ : ∃ n, d.toNat = n ∧ 65 ≤ n ∧ n ≤ 90 :=
      ⟨_, rfl, h1, h2⟩
    have hc := Char.ofNat_toNat d
    rw [hn] at hc
    interval_cases n <;> (rw [← hc]; left; decide)
  · obtain ⟨n, hn, hn1, hn2⟩ : ∃ n, d.toNat = n ∧ 97 ≤ n ∧ n ≤ 122 :=
      ⟨_, rfl, h1, h2⟩
    have hc := Char.ofNat_toNat d
    rw [hn] at hc
    interval_cases n <;> (rw [← hc]; left; decide)
  · left; decide
  · left; decide
  · right; decide

theorem alphaStr_compact_normalize (s : Str) :
    alphaStr (compact_name (normalize_letters s)) := by
  intro c hc
  unfold compact_name strip_accents_keep_enye lower_ascii at hc
  obtain ⟨hmem, hns⟩ := List.mem_filter.mp hc
  obtain ⟨d, hd, rfl⟩ := List.mem_map.mp hmem
  have hnorm := normalize_letters_chars s d hd
  rcases lower_of_norm hnorm with h | h
  · exact h
  · rw [h] at hns
    exact absurd hns (by decide)

/-! ### Chunk-set lemmas -/

theorem compact_empty_chunks {name : Str} (h : compact_name name = []) :
    syllableish_chunks name = [] := by
  unfold syllableish_chunks
  rw [h]
  simp

theorem chunks_ne_of_compact_ne {name : Str} (h : compact_name name ≠ []) :
    syllableish_chunks name ≠ [] := by
  unfold syllableish_chunks
  by_cases hlen : (compact_name name).length < 2
  · simp only [if_pos hlen, if_neg h]
    exact List.cons_ne_nil _ _
  · simp only [if_neg hlen]
    intro hcontra
    have hperm := sort_by_perm chunk_le
      ((((([2, 3, 4].filter (fun L => L ≤ (compact_name name).length)).map
        (fun L => [(compact_name name).take L,
          (compact_name name).drop ((compact_name name).length - L)])).flatten
        ++ ([2, 3, 4].map (fun L =>
          (List.range' 1 (max 1 ((compact_name name).length - L) - 1)).map
            (fun i => ((compact_name name).drop i).take L))).flatten).dedup).filter
        (fun c => c ≠ []))
    rw [hcontra] at hperm
    have hnil := hperm.symm.eq_nil
    have hmem : (compact_name name).take 2 ∈
        ((((([2, 3, 4].filter (fun L => L ≤ (compact_name name).length)).map
          (fun L => [(compact_name name).take L,
            (compact_name name).drop ((compact_name name).length - L)])).flatten
          ++ ([2, 3, 4].map (fun L =>
            (List.range' 1 (max 1 ((compact_name name).length - L) - 1)).map
              (fun i => ((compact_name name).drop i).take L))).flatten).dedup).filter
          (fun c => c ≠ [])) := by
      rw [List.mem_filter]
      constructor
      · rw [List.mem_dedup, List.mem_append]
        left
        rw [List.mem_flatten]
        refine ⟨[(compact_name name).take 2,
          (compact_name name).drop ((compact_name name).length - 2)], ?_, ?_⟩
        · rw [List.mem_map]
          exact ⟨2, by simp [List.mem_filter]; omega, rfl⟩
        · exact List.mem_cons_self _ _
      · have : (compact_name name).take 2 ≠ [] := by
          have h2 : 2 ≤ (compact_name name).length := by omega
          intro hch
          have hlt := congrArg List.length hch
          rw [List.length_take] at hlt
          simp only [List.length_nil] at hlt
          omega
        simpa using this
    rw [hnil] at hmem
    simp at hmem

theorem chunks_good {name : Str} (halpha : alphaStr (compact_name name)) :
    ∀ ch ∈ syllableish_chunks name, ch ≠ [] ∧ alphaStr ch := by
  intro ch hch
  unfold syllableish_chunks at hch
  by_cases hlen : (compact_name name).length < 2
  · rw [if_pos hlen] at hch
    by_cases hnil : compact_name name = []
    · rw [if_pos hnil] at hch
      simp at hch
    · rw [if_neg hnil] at hch
      rcases List.mem_singleton.mp hch with rfl
      exact ⟨hnil, halpha⟩
  · rw [if_neg hlen] at hch
    have hmem := (sort_by_perm chunk_le _).mem_iff.mp hch
    obtain ⟨hmem2, hne⟩ := List.mem_filter.mp hmem
    rw [List.mem_dedup, List.mem_append] at hmem2
    refine ⟨by simpa using hne, ?_⟩
    rcases hmem2 with hm | hm
    · rw [List.mem_flatten] at hm
      obtain ⟨pair, hpair, hin⟩ := hm
      rw [List.mem_map] at hpair
      obtain ⟨L, _, rfl⟩ := hpair
      rcases List.mem_cons.mp hin with rfl | hin
      · exact alphaStr_take _ halpha
      rcases List.mem_singleton.mp hin with rfl
      exact alphaStr_drop _ halpha
    · rw [List.mem_flatten] at hm
      obtain ⟨ws, hws, hin⟩ := hm
      rw [List.mem_map] at hws
      obtain ⟨L, _, rfl⟩ := hws
      rw [List.mem_map] at hin
      obtain ⟨i, _, rfl⟩ := hin
      exact alphaStr_take _ (alphaStr_drop _ halpha)

/-! ### Context well-formedness -/

/-- A pool of parts is good when each entry is nonempty and in-alphabet. -/
def good_pool (l : List Str) : Prop := ∀ p ∈ l, p ≠ [] ∧ alphaStr p

theorem good_pool_of_all {l : List Str}
    (h : ∀ p ∈ l, p ≠ [] ∧ p.all is_alpha_enye = true) : good_pool l :=
  fun p hp => ⟨(h p hp).1, alphaStr_iff_all.mpr (h p hp).2⟩

/-- The facts about a generation context that hold whenever the early-return
guard of `generate_names` has passed. -/
structure CtxWF (ctx : GenCtx) : Prop where
  f_ne : ctx.f_chunks ≠ []
  m_ne : ctx.m_chunks ≠ []
  f_good : good_pool ctx.f_chunks
  m_good : good_pool ctx.m_chunks
  mother_ne : compact_name ctx.mother ≠ []
  mother_alpha : alphaStr (compact_name ctx.mother)
  endings_ne : ctx.endings ≠ []
  v_pre_ne : ctx.v_pre ≠ []
  v_suf_ne : ctx.v_suf ≠ []
  v_pre_good : good_pool ctx.v_pre
  v_suf_good : good_pool ctx.v_suf

theorem mk_ctx_wf {father mother : Str} {gender mode : String}
    (hf : (mk_ctx father mother gender mode).f_chunks ≠ [])
    (hm : (mk_ctx father mother gender mode).m_chunks ≠ []) :
    CtxWF (mk_ctx father mother gender mode) := by
  refine ⟨hf, hm, ?_, ?_, ?_, ?_, ?_, ?_, ?_, ?_, ?_⟩
  · exact good_pool_of_all (by
      intro p hp
      have := chunks_good (alphaStr_compact_normalize father) p hp
      exact ⟨this.1, alphaStr_iff_all.mp this.2⟩)
  · exact good_pool_of_all (by
      intro p hp
      have := chunks_good (alphaStr_compact_normalize mother) p hp
      exact ⟨this.1, alphaStr_iff_all.mp this.2⟩)
  · intro hcontra
    exact hm (compact_empty_chunks hcontra)
  · exact alphaStr_compact_normalize mother
  · show gender_endings gender mode ≠ []
    unfold gender_endings
    split
    · decide
    split
    · decide
    · decide
  · show (if gender = "M" then VENCO_PREFIXES_M else VENCO_PREFIXES_H) ≠ []
    split <;> decide
  · show (if gender = "M" then VENCO_SUFFIXES_M else VENCO_SUFFIXES_H) ≠ []
    split <;> decide
  · show good_pool (if gender = "M" then VENCO_PREFIXES_M else VENCO_PREFIXES_H)
    split <;> exact good_pool_of_all (by decide)
  · show good_pool (if gender = "M" then VENCO_SUFFIXES_M else VENCO_SUFFIXES_H)
    split <;> exact good_pool_of_all (by decide)

/-! ### Candidate-map lemmas -/

theorem cand_set_of_get_none {m : List Candidate} {key : Str} {c : Candidate}
    (h : cand_get m key = none) : cand_set m key c = m ++ [c] := by
  induction m with
  | nil => rfl
  | cons d rest ih =>
    rw [cand_get, List.find?_cons] at h
    by_cases hd : (d.name == key) = true
    · rw [hd] at h
      simp at h
    · have hdf : (d.name == key) = false := by simpa using hd
      rw [hdf] at h
      simp only [cand_set, hdf, Bool.false_eq_true, if_false]
      rw [ih h]
      simp

theorem cand_get_none_not_mem {m : List Candidate} {key : Str}
    (h : cand_get m key = none) : key ∉ m.map Candidate.name := by
  intro hmem
  obtain ⟨c, hc, hname⟩ := List.mem_map.mp hmem
  have := List.find?_eq_none.mp h c hc
  simp [hname] at this

theorem mem_cand_set {m : List Candidate} {key : Str} {c z : Candidate}
    (h : z ∈ cand_set m key c) : z = c ∨ z ∈ m := by
  induction m with
  | nil => simpa [cand_set] using h
  | cons d rest ih =>
    rw [cand_set] at h
    split at h
    · rcases List.mem_cons.mp h with rfl | h
      · exact Or.inl rfl
      · exact Or.inr (List.mem_cons_of_mem _ h)
    · rcases List.mem_cons.mp h with rfl | h
      · exact Or.inr (List.mem_cons_self _ _)
      · rcases ih h with h | h
        · exact Or.inl h
        · exact Or.inr (List.mem_cons_of_mem _ h)

theorem cand_set_names_of_get_some {m : List Candidate} {key : Str}
    {c prev : Candidate} (hc : c.name = key) (h : cand_get m key = some prev) :
    (cand_set m key c).map Candidate.name = m.map Candidate.name := by
  induction m with
  | nil => simp [cand_get] at h
  | cons d rest ih =>
    rw [cand_get, List.find?_cons] at h
    by_cases hd : (d.name == key) = true
    · simp only [cand_set, hd, if_true]
      simp only [List.map_cons, hc]
      rw [show d.name = key from by simpa using hd]
    · have hdf : (d.name == key) = false := by simpa using hd
      rw [hdf] at h
      simp only [cand_set, hdf, Bool.false_eq_true, if_false]
      simp only [List.map_cons]
      rw [ih h]

/-! ### The loop invariant -/

/-- Facts holding of every candidate retained by the attempt loop. -/
def good_cand (ctx : GenCtx) (c : Candidate) : Prop :=
  alphaStr c.name ∧ 4 ≤ c.name.length ∧
    (ctx.mode ≠ "Worst-case" → c.name ≠ ctx.f_norm ∧ c.name ≠ ctx.m_norm)

/-- Invariant of the candidate map across the attempt loop. -/
def good_state (ctx : GenCtx) (cands : List Candidate) : Prop :=
  (cands.map Candidate.name).Nodup ∧ ∀ c ∈ cands, good_cand ctx c

theorem attempt_step_eq (ctx : GenCtx) (cands : List Candidate) (rng : Rng) :
    attempt_step ctx (cands, rng)
      = (let nr := (build_attempt_name ctx rng).1
         let rng2 := (build_attempt_name ctx rng).2
         if nr = [] ∨ nr.length < 4 then (cands, rng2)
         else if ctx.mode ≠ "Worst-case" ∧ (nr = ctx.f_norm ∨ nr = ctx.m_norm)
           then (cands, rng2)
         else if ctx.mode ≠ "Worst-case" ∧ has_qxz_run nr then (cands, rng2)
         else
           match cand_get cands nr with
           | none =>
             (cand_set cands nr ⟨nr, score_name nr ctx.gender ctx.mode⟩, rng2)
           | some prev =>
             if prev.score < score_name nr ctx.gender ctx.mode then
               (cand_set cands nr ⟨nr, score_name nr ctx.gender ctx.mode⟩, rng2)
             else (cands, rng2)) := rfl

theorem attempt_step_good {ctx : GenCtx} {cands : List Candidate} {rng : Rng}
    (hst : good_state ctx cands) :
    good_state ctx (attempt_step ctx (cands, rng)).1 := by
  rw [attempt_step_eq]
  set nr := (build_attempt_name ctx rng).1 with hnr
  have halpha : alphaStr nr := build_attempt_name_alpha ctx rng
  by_cases h1 : nr = [] ∨ nr.length < 4
  · rw [if_pos h1]
    exact hst
  rw [if_neg h1]
  by_cases h2 : ctx.mode ≠ "Worst-case" ∧ (nr = ctx.f_norm ∨ nr = ctx.m_norm)
  · rw [if_pos h2]
    exact hst
  rw [if_neg h2]
  by_cases h3 : ctx.mode ≠ "Worst-case" ∧ has_qxz_run nr
  · rw [if_pos h3]
    exact hst
  rw [if_neg h3]
  have hgood : good_cand ctx ⟨nr, score_name nr ctx.gender ctx.mode⟩ := by
    push_neg at h1
    refine ⟨halpha, h1.2, ?_⟩
    intro hmode
    constructor
    · intro hf
      exact h2 ⟨hmode, Or.inl hf⟩
    · intro hm
      exact h2 ⟨hmode, Or.inr hm⟩
  rcases hget : cand_get cands nr with _ | prev
  · simp only [hget]
    constructor
    · rw [cand_set_of_get_none hget, List.map_append]
      rw [List.nodup_append]
      refine ⟨hst.1, by simp, ?_⟩
      intro a ha hb
      rcases List.mem_map.mp hb with ⟨c, hc, hcn⟩
      rcases List.mem_singleton.mp hc with rfl
      rw [← hcn] at ha
      exact cand_get_none_not_mem hget ha
    · intro c hc
      rcases mem_cand_set hc with rfl | hc
      · exact hgood
      · exact hst.2 c hc
  · simp only [hget]
    split
    · constructor
      · show (List.map Candidate.name (cand_set cands nr
          ⟨nr, score_name nr ctx.gender ctx.mode⟩)).Nodup
        rw [@cand_set_names_of_get_some cands nr
          ⟨nr, score_name nr ctx.gender ctx.mode⟩ prev rfl hget]
        exact hst.1
      · intro c hc
        rcases mem_cand_set hc with rfl | hc
        · exact hgood
        · exact hst.2 c hc
    · exact hst

theorem run_attempts_good {ctx : GenCtx} :
    ∀ (n : Nat) (st : List Candidate × Rng), good_state ctx st.1 →
      good_state ctx (run_attempts ctx n st).1
  | 0, _, hst => hst
  | n + 1, st, hst =>
    run_attempts_good n _ (by
      rw [show attempt_step ctx st = attempt_step ctx (st.1, st.2) from rfl]
      exact attempt_step_good hst)

/-! ### From the loop invariant to the output -/

theorem generate_candidates_good (rng : Rng) (father mother : Str)
    (gender mode : String) (k : Nat) :
    good_state (mk_ctx father mother gender mode)
      (generate_candidates rng father mother gender mode k).1 := by
  unfold generate_candidates
  dsimp only
  split
  · exact ⟨by simp, by simp⟩
  · exact run_attempts_good _ _ ⟨by simp, by simp⟩

theorem generate_names_core_eq (rng : Rng) (father mother : Str)
    (gender mode : String) (k : Nat) :
    generate_names_core rng father mother gender mode k
      = (((sort_by cand_before
            (generate_candidates rng father mother gender mode k).1).take k).map
          (fun c => titlecase_name c.name),
         (generate_candidates rng father mother gender mode k).2) := rfl

theorem mem_generate_names_core {rng : Rng} {father mother : Str}
    {gender mode : String} {k : Nat} {s : Str}
    (hs : s ∈ (generate_names_core rng father mother gender mode k).1) :
    ∃ c, c ∈ (generate_candidates rng father mother gender mode k).1 ∧
      good_cand (mk_ctx father mother gender mode) c ∧
      s = titlecase_name c.name := by
  rw [generate_names_core_eq] at hs
  obtain ⟨c, hc, rfl⟩ := List.mem_map.mp hs
  have hmem : c ∈ (generate_candidates rng father mother gender mode k).1 :=
    (sort_by_perm cand_before _).subset (List.take_subset _ _ hc)
  exact ⟨c, hmem,
    (generate_candidates_good rng father mother gender mode k).2 c hmem, rfl⟩

theorem lower_titlecase {s : Str} (h : s.all is_alpha_enye = true) :
    lower_ascii (titlecase_name s) = s := by
  cases s with
  | nil => rfl
  | cons c rest =>
    simp only [List.all_cons, Bool.and_eq_true] at h
    simp only [titlecase_name, lower_ascii, List.map_cons]
    rw [show (lower_char (upper_char c)) = c from lower_upper_id h.1]
    have hmap : rest.map lower_char = rest := by
      simpa [lower_ascii] using lower_ascii_id_of_alpha h.2
    rw [hmap, hmap]

theorem alpha_not_disallowed {ch : Char} (h : is_alpha_enye ch = true) :
    (!ALPHABET.contains ch && ch != 'ñ') = false := by
  have := alpha_char_mem h
  fin_cases this <;> decide

/-- C3: in mode Normal or Veneco, no returned string is identical
(case-insensitively and space-stripped) to the normalized father or mother
name. -/
theorem generate_names_never_parent (rng : Rng) (father mother : Str)
    (gender mode : String) (k : Nat)
    (hmode : mode = "Normal" ∨ mode = "Veneco") :
    ∀ s ∈ (generate_names_core rng father mother gender mode k).1,
      compact_name s ≠ compact_name (normalize_letters father) ∧
      compact_name s ≠ compact_name (normalize_letters mother) := by
  intro s hs
  obtain ⟨c, _, hgood, rfl⟩ := mem_generate_names_core hs
  have hct : compact_name (titlecase_name c.name) = c.name :=
    compact_titlecase (alphaStr_iff_all.mp hgood.1)
  have hne := hgood.2.2 (by
    rcases hmode with rfl | rfl
    · show ("Normal" : String) ≠ "Worst-case"
      decide
    · show ("Veneco" : String) ≠ "Worst-case"
      decide)
  rw [hct]
  exact hne

/-- Witness for C3 at a concrete input. -/
theorem generate_names_never_parent_witness :
    (("Normal" : String) = "Normal" ∨ ("Normal" : String) = "Veneco") ∧
    (∀ s ∈ (generate_names_core (Rng.init 42) (String.toList "pedro")
        (String.toList "maria") "M" "Normal" 3).1,
      compact_name s
        ≠ compact_name (normalize_letters (String.toList "pedro")) ∧
      compact_name s
        ≠ compact_name (normalize_letters (String.toList "maria"))) :=
  ⟨Or.inl rfl, generate_names_never_parent (Rng.init 42)
    (String.toList "pedro") (String.toList "maria") "M" "Normal" 3 (Or.inl rfl)⟩

/-- C4: the output is an ordered sequence of at most `k` pairwise-distinct
strings, each with an uppercase first character and lowercase remainder. -/
theorem generate_names_shape (rng : Rng) (father mother : Str)
    (gender mode : String) (k : Nat) :
    (generate_names_core rng father mother gender mode k).1.length ≤ k ∧
    (generate_names_core rng father mother gender mode k).1.Nodup ∧
    ∀ s ∈ (generate_names_core rng father mother gender mode k).1,
      is_titlecased s = true := by
  refine ⟨?_, ?_, ?_⟩
  · rw [generate_names_core_eq]
    simp only [List.length_map]
    exact List.length_take_le _ _
  · rw [generate_names_core_eq]
    set l := (sort_by cand_before
      (generate_candidates rng father mother gender mode k).1).take k with hl
    have hsub : ∀ c ∈ l, c ∈ (generate_candidates rng father mother gender mode k).1 := by
      intro c hc
      exact (sort_by_perm cand_before _).subset (List.take_subset _ _ hc)
    have hnames : (l.map Candidate.name).Nodup := by
      have hperm : ((sort_by cand_before
          (generate_candidates rng father mother gender mode k).1).map
            Candidate.name).Perm
          ((generate_candidates rng father mother gender mode k).1.map
            Candidate.name) :=
        (sort_by_perm cand_before _).map Candidate.name
      have hnd := hperm.nodup_iff.mpr
        (generate_candidates_good rng father mother gender mode k).1
      exact hnd.sublist ((List.take_sublist k _).map Candidate.name)
    have hlnd : l.Nodup := hnames.of_map
    refine List.Nodup.map_on ?_ hlnd
    intro x hx y hy hxy
    have hxg := (generate_candidates_good rng father mother gender mode k).2 x (hsub x hx)
    have hyg := (generate_candidates_good rng father mother gender mode k).2 y (hsub y hy)
    have hnameeq : x.name = y.name :=
      titlecase_inj (alphaStr_iff_all.mp hxg.1) (alphaStr_iff_all.mp hyg.1) hxy
    exact List.inj_on_of_nodup_map hnames hx hy hnameeq
  · intro s hs
    obtain ⟨c, _, hgood, rfl⟩ := mem_generate_names_core hs
    refine titlecase_is_titlecased (alphaStr_iff_all.mp hgood.1) ?_
    intro hnil
    have := hgood.2.1
    rw [hnil] at this
    simp at this

/-- C10: every retained candidate and every returned name consists, after
lowercasing, solely of `a`–`z` and `ñ`; the scorer's disallowed-character
condition is false for every retained candidate. -/
theorem generate_names_alphabet (rng : Rng) (father mother : Str)
    (gender mode : String) (k : Nat)
    (hmode : mode = "Normal" ∨ mode = "Veneco" ∨ mode = "Worst-case") :
    (∀ c ∈ (generate_candidates rng father mother gender mode k).1,
        (lower_ascii c.name).all is_alpha_enye = true ∧
        (lower_ascii c.name).any
          (fun ch => !ALPHABET.contains ch && ch != 'ñ') = false) ∧
    ∀ s ∈ (generate_names_core rng father mother gender mode k).1,
      (lower_ascii s).all is_alpha_enye = true := by
  constructor
  · intro c hc
    have hgood := (generate_candidates_good rng father mother gender mode k).2 c hc
    have hid : lower_ascii c.name = c.name :=
      lower_ascii_id_of_alpha (alphaStr_iff_all.mp hgood.1)
    rw [hid]
    refine ⟨alphaStr_iff_all.mp hgood.1, ?_⟩
    rw [List.any_eq_false]
    intro ch hch
    rw [alpha_not_disallowed (hgood.1 ch hch)]
    simp
  · intro s hs
    obtain ⟨c, _, hgood, rfl⟩ := mem_generate_names_core hs
    rw [lower_titlecase (alphaStr_iff_all.mp hgood.1)]
    exact alphaStr_iff_all.mp hgood.1

/-- Witness for C10 at a concrete input. -/
theorem generate_names_alphabet_witness :
    (("Veneco" : String) = "Normal" ∨ ("Veneco" : String) = "Veneco"
        ∨ ("Veneco" : String) = "Worst-case") ∧
    ((∀ c ∈ (generate_candidates (Rng.init 7) (String.toList "juan")
          (String.toList "rosa") "H" "Veneco" 5).1,
        (lower_ascii c.name).all is_alpha_enye = true ∧
        (lower_ascii c.name).any
          (fun ch => !ALPHABET.contains ch && ch != 'ñ') = false) ∧
      ∀ s ∈ (generate_names_core (Rng.init 7) (String.toList "juan")
          (String.toList "rosa") "H" "Veneco" 5).1,
        (lower_ascii s).all is_alpha_enye = true) :=
  ⟨Or.inr (Or.inl rfl), generate_names_alphabet (Rng.init 7)
    (String.toList "juan") (String.toList "rosa") "H" "Veneco" 5
    (Or.inr (Or.inl rfl))⟩

/-- C7: the returned list is the title-cased top-`k` of the ranked candidate
list; that list is sorted by score descending, and candidates of equal score
keep their dict insertion order (the order of first surviving attempts). -/
theorem generate_names_ranked_order (rng : Rng) (father mother : Str)
    (gender mode : String) (k : Nat) :
    (generate_names_core rng father mother gender mode k).1
      = ((generate_ranked rng father mother gender mode k).take k).map
          (fun c => titlecase_name c.name) ∧
    (generate_ranked rng father mother gender mode k).Pairwise
      (fun a b => b.score ≤ a.score) ∧
    ∀ q : ℚ,
      (generate_ranked rng father mother gender mode k).filter
          (fun c => decide (c.score = q))
        = (generate_candidates rng father mother gender mode k).1.filter
            (fun c => decide (c.score = q)) :=
  ⟨rfl, sort_by_cand_sorted _, fun q => sort_by_cand_filter q _⟩

/-! ### Monotonicity in the attempt budget -/

theorem cand_set_length_ge (m : List Candidate) (key : Str) (c : Candidate) :
    m.length ≤ (cand_set m key c).length := by
  induction m with
  | nil => simp [cand_set]
  | cons d rest ih =>
    rw [cand_set]
    split
    · simp
    · simpa using ih

theorem attempt_step_length {ctx : GenCtx} (cands : List Candidate) (rng : Rng) :
    cands.length ≤ (attempt_step ctx (cands, rng)).1.length := by
  rw [attempt_step_eq]
  dsimp only
  split
  · exact le_refl _
  split
  · exact le_refl _
  split
  · exact le_refl _
  split
  · exact cand_set_length_ge _ _ _
  split
  · exact cand_set_length_ge _ _ _
  · exact le_refl _

theorem run_attempts_add (ctx : GenCtx) :
    ∀ (a b : Nat) (st : List Candidate × Rng),
      run_attempts ctx (a + b) st = run_attempts ctx b (run_attempts ctx a st)
  | 0, b, st => by rw [Nat.zero_add]; rfl
  | a + 1, b, st => by
    rw [show a + 1 + b = (a + b) + 1 from by omega]
    rw [show run_attempts ctx ((a + b) + 1) st
        = run_attempts ctx (a + b) (attempt_step ctx st) from rfl]
    rw [run_attempts_add ctx a b (attempt_step ctx st)]
    rfl

theorem run_attempts_length_mono (ctx : GenCtx) :
    ∀ (n : Nat) (st : List Candidate × Rng),
      st.1.length ≤ (run_attempts ctx n st).1.length
  | 0, _ => le_refl _
  | n + 1, st =>
    le_trans (attempt_step_length st.1 st.2)
      (run_attempts_length_mono ctx n (attempt_step ctx (st.1, st.2)))

theorem generate_candidates_length_mono (rng : Rng) (father mother : Str)
    (gender mode : String) {k1 k2 : Nat} (hk : k1 ≤ k2) :
    (generate_candidates rng father mother gender mode k1).1.length
      ≤ (generate_candidates rng father mother gender mode k2).1.length := by
  unfold generate_candidates
  dsimp only
  split
  · exact le_refl _
  · have hatt : max 320 (k1 * 90) ≤ max 320 (k2 * 90) := by
      have : k1 * 90 ≤ k2 * 90 := by omega
      omega
    obtain ⟨d, hd⟩ : ∃ d, max 320 (k2 * 90) = max 320 (k1 * 90) + d :=
      ⟨_, (Nat.add_sub_cancel' hatt).symm⟩
    rw [hd, run_attempts_add]
    exact run_attempts_length_mono _ _ _

theorem generate_names_core_length (rng : Rng) (father mother : Str)
    (gender mode : String) (k : Nat) :
    (generate_names_core rng father mother gender mode k).1.length
      = min k (generate_candidates rng father mother gender mode k).1.length := by
  rw [generate_names_core_eq]
  simp [List.length_take, (sort_by_perm cand_before _).length_eq]

/-- C5: with everything but `k` fixed, the output length is non-decreasing in
`k` and always at most `k`. -/
theorem generate_names_k_monotone (father mother : Str) (gender mode : String)
    (k1 k2 seed : Nat) (hk1 : 0 < k1) (hk : k1 ≤ k2) :
    (generate_names father mother gender mode k1 seed).length
      ≤ (generate_names father mother gender mode k2 seed).length ∧
    (generate_names father mother gender mode k1 seed).length ≤ k1 ∧
    (generate_names father mother gender mode k2 seed).length ≤ k2 := by
  unfold generate_names
  rw [generate_names_core_length, generate_names_core_length]
  refine ⟨?_, Nat.min_le_left _ _, Nat.min_le_left _ _⟩
  have := generate_candidates_length_mono (Rng.init seed) father mother
    gender mode hk
  omega

/-- Witness for C5 at a concrete input. -/
theorem generate_names_k_monotone_witness :
    0 < 1 ∧ 1 ≤ 2 ∧
    ((generate_names (String.toList "pedro") (String.toList "maria")
        "M" "Normal" 1 42).length
      ≤ (generate_names (String.toList "pedro") (String.toList "maria")
          "M" "Normal" 2 42).length ∧
     (generate_names (String.toList "pedro") (String.toList "maria")
        "M" "Normal" 1 42).length ≤ 1 ∧
     (generate_names (String.toList "pedro") (String.toList "maria")
        "M" "Normal" 2 42).length ≤ 2) :=
  ⟨Nat.one_pos, by omega, generate_names_k_monotone (String.toList "pedro")
    (String.toList "maria") "M" "Normal" 1 2 42 Nat.one_pos (by omega)⟩

/-- C1: for equal input tuples the outputs are equal, and the call is the
pure run of a random state freshly created from the seed alone. -/
theorem generate_names_deterministic (f1 f2 m1 m2 : Str) (g1 g2 md1 md2 : String)
    (k1 k2 s1 s2 : Nat) (hf : f1 = f2) (hm : m1 = m2) (hg : g1 = g2)
    (hmd : md1 = md2) (hk : k1 = k2) (hs : s1 = s2) :
    generate_names f1 m1 g1 md1 k1 s1 = generate_names f2 m2 g2 md2 k2 s2 ∧
    generate_names f1 m1 g1 md1 k1 s1
      = (generate_names_core (Rng.init s1) f1 m1 g1 md1 k1).1 := by
  subst hf hm hg hmd hk hs
  exact ⟨rfl, rfl⟩

/-- Witness for C1 at a concrete input. -/
theorem generate_names_deterministic_witness :
    generate_names (String.toList "pedro") (String.toList "maria")
        "M" "Normal" 3 42
      = generate_names (String.toList "pedro") (String.toList "maria")
          "M" "Normal" 3 42 ∧
    generate_names (String.toList "pedro") (String.toList "maria")
        "M" "Normal" 3 42
      = (generate_names_core (Rng.init 42) (String.toList "pedro")
          (String.toList "maria") "M" "Normal" 3).1 :=
  generate_names_deterministic (String.toList "pedro") (String.toList "pedro")
    (String.toList "maria") (String.toList "maria") "M" "M" "Normal" "Normal"
    3 3 42 42 rfl rfl rfl rfl rfl rfl

/-! ### Short and empty names (C2) -/

/-- C2 counterexample: a one-letter name has fewer than 2 effective letters,
yet its chunk set is the nonempty singleton, not the empty set. -/
theorem chunks_single_letter_nonempty :
    (compact_name ['a']).length < 2 ∧ syllableish_chunks ['a'] ≠ [] := by
  decide

/-- C2 amended: a name whose compact (normalized, accent-stripped,
space-removed) form is empty has an empty chunk set, and `generate_names`
with such a father or mother returns the empty list. -/
theorem chunks_empty_guard :
    (∀ name : Str, compact_name name = [] → syllableish_chunks name = []) ∧
    (∀ (rng : Rng) (father mother : Str) (gender mode : String) (k : Nat),
      compact_name (normalize_letters father) = [] ∨
        compact_name (normalize_letters mother) = [] →
      (generate_names_core rng father mother gender mode k).1 = []) := by
  refine ⟨fun name h => compact_empty_chunks h, ?_⟩
  intro rng father mother gender mode k h
  rw [generate_names_core_eq]
  have hcond : (mk_ctx father mother gender mode).f_chunks = []
      ∨ (mk_ctx father mother gender mode).m_chunks = [] := by
    rcases h with h | h
    · exact Or.inl (compact_empty_chunks h)
    · exact Or.inr (compact_empty_chunks h)
  have hcands : (generate_candidates rng father mother gender mode k).1 = [] := by
    unfold generate_candidates
    dsimp only
    rw [if_pos hcond]
  rw [hcands]
  simp [sort_by]

/-- Witness for the amended C2 at concrete inputs. -/
theorem chunks_empty_guard_witness :
    syllableish_chunks [] = [] ∧
    (generate_names_core (Rng.init 0) [] (String.toList "ana")
      "M" "Normal" 3).1 = [] :=
  ⟨chunks_empty_guard.1 [] rfl,
   chunks_empty_guard.2 (Rng.init 0) [] (String.toList "ana") "M" "Normal" 3
     (Or.inl rfl)⟩

/-! ### Normalizer output (C9) -/

/-- Two consecutive spaces somewhere in the string. -/
def has_double_space : Str → Bool
  | a :: b :: rest => (a == ' ' && b == ' ') || has_double_space (b :: rest)
  | _ => false

/-- C9 counterexample: a hyphen next to a space survives as two consecutive
spaces, because whitespace collapsing runs before hyphen conversion. -/
theorem normalize_letters_double_space :
    has_double_space (normalize_letters (String.toList "a- b")) = true := by
  decide

/-- C9 amended: the output of the normalizer contains only letters, `ñ`/`Ñ`
and the plain space character (but may contain consecutive spaces, since
whitespace collapsing happens before hyphen conversion and before removal of
other characters). -/
theorem normalize_letters_only_letters_space (s : Str) :
    (normalize_letters s).all
      (fun c => is_ascii_letter c || c == 'ñ' || c == 'Ñ' || c == ' ') = true := by
  rw [List.all_eq_true]
  intro c hc
  have := normalize_letters_chars s c hc
  simpa [is_norm_char] using this

/-! ### Unrecognized modes (C8) -/

/-- Modelled from the spec's words for C8 ("scoring applies no
cultural/worst-case branch"): the scorer with the whole cultural-morpheme /
leading-pattern block removed and every other non-worst-case component kept. -/
def score_name_no_cultural (name : Str) (gender : String) : ℚ :=
  let n := lower_ascii name
  let length := n.length
  let base : ℚ := 0
  let base :=
    if 5 ≤ length ∧ length ≤ 10 then base + 3
    else if 4 ≤ length ∧ length ≤ 12 then base + 3 / 2
    else base - 2
  let base := base - 9 / 10 * (tri_penalties n : ℚ)
  let base :=
    if n.any (fun ch => !ALPHABET.contains ch && ch != 'ñ') then base - 10
    else base
  let fem_bias := ends_with_any FEM_SUFFIX_CHECK n
  let masc_bias := ends_with_any MASC_SUFFIX_CHECK n
  let base := if gender = "M" ∧ fem_bias then base + 1 / 2 else base
  if gender = "H" ∧ masc_bias then base + 1 / 2 else base

theorem score_jhon_foo_eq :
    score_name ['j', 'h', 'o', 'n'] "M" "Foo" = 81 / 10 := by
  unfold score_name
  dsimp only
  rw [show lower_ascii ['j', 'h', 'o', 'n'] = ['j', 'h', 'o', 'n'] from by decide]
  rw [if_pos (show ("Foo" : String) ≠ "Worst-case" from by decide)]
  rw [if_pos (show ("Foo" : String) ≠ "Worst-case" from by decide)]
  rw [if_pos (show ("Foo" : String) ≠ "Worst-case" from by decide)]
  rw [if_neg (show ¬ (("Foo" : String) = "Veneco") from by decide)]
  rw [if_neg (show ¬ (("Foo" : String) = "Normal") from by decide)]
  rw [show tri_penalties ['j', 'h', 'o', 'n'] = 0 from by decide]
  rw [show cultural_hits ['j', 'h', 'o', 'n'] = 1 from by decide]
  rw [show starts_with_any LEAD_DIGRAPHS ['j', 'h', 'o', 'n'] = true from by decide]
  simp +decide only [ends_with_any, FEM_SUFFIX_CHECK, MASC_SUFFIX_CHECK,
    is_infix_of, ALPHABET, List.any_cons, List.any_nil, List.contains,
    List.count_cons, List.count_nil]
  norm_num

theorem score_jhon_nocultural_eq :
    score_name_no_cultural ['j', 'h', 'o', 'n'] "M" = 3 / 2 := by
  unfold score_name_no_cultural
  dsimp only
  rw [show lower_ascii ['j', 'h', 'o', 'n'] = ['j', 'h', 'o', 'n'] from by decide]
  rw [show tri_penalties ['j', 'h', 'o', 'n'] = 0 from by decide]
  simp +decide only [ends_with_any, FEM_SUFFIX_CHECK, MASC_SUFFIX_CHECK,
    ALPHABET, List.any_cons, List.any_nil]
  norm_num

/-- C8 counterexample: for the unrecognized mode `"Foo"`, the scorer does
apply a cultural branch (the worst-case-style `else` branch), so its value
differs from the no-cultural-branch scorer of the claim. -/
theorem score_unknown_mode_applies_cultural :
    ¬ (score_name ['j', 'h', 'o', 'n'] "M" "Foo"
        = score_name_no_cultural ['j', 'h', 'o', 'n'] "M") := by
  rw [score_jhon_foo_eq, score_jhon_nocultural_eq]
  norm_num

/-- The scorer's actual behavior on unrecognized modes, written out:
non-worst-case length band, pronounceability penalty and gender bias, but
the worst-case-style cultural `else` branch. -/
def score_name_unknown_mode (name : Str) (gender : String) : ℚ :=
  let n := lower_ascii name
  let length := n.length
  let base : ℚ := 0
  let base :=
    if 5 ≤ length ∧ length ≤ 10 then base + 3
    else if 4 ≤ length ∧ length ≤ 12 then base + 3 / 2
    else base - 2
  let base := base - 9 / 10 * (tri_penalties n : ℚ)
  let hits := cultural_hits n
  let base := base + 16 / 10 * (hits : ℚ)
  let base := if starts_with_any LEAD_DIGRAPHS n then base + 2 else base
  let base := if n.contains 'h' then base + 1 else base
  let base := if 1 ≤ n.count 'y' then base + 1 else base
  let base :=
    if ((["jh", "yhajh", "nhy"]).map String.toList).any
        (fun x => is_infix_of x n) then base + 2 else base
  let base :=
    if n.any (fun ch => !ALPHABET.contains ch && ch != 'ñ') then base - 10
    else base
  let fem_bias := ends_with_any FEM_SUFFIX_CHECK n
  let masc_bias := ends_with_any MASC_SUFFIX_CHECK n
  let base := if gender = "M" ∧ fem_bias then base + 1 / 2 else base
  if gender = "H" ∧ masc_bias then base + 1 / 2 else base

/-- C8 amended: an unrecognized mode falls through smoothing with no
mode-specific branch (base smoothing only), and is scored with the
non-worst-case length band, pronounceability penalty and gender bias combined
with the worst-case-style cultural branch — a fourth implicit mode. -/
theorem unknown_mode_fallthrough (parts : List Str) (rng : Rng) (n : Str)
    (gender mode : String)
    (hmode : mode ≠ "Normal" ∧ mode ≠ "Veneco" ∧ mode ≠ "Worst-case") :
    join_with_smoothing parts rng mode
      = (collapse_runs (smooth_pass rng (clean_concat parts)).1,
         (smooth_pass rng (clean_concat parts)).2) ∧
    score_name n gender mode = score_name_unknown_mode n gender := by
  constructor
  · rw [join_with_smoothing_eq]
    dsimp only
    rw [if_neg hmode.1, if_neg hmode.2.1, if_neg hmode.2.2]
  · have hwc : mode ≠ "Worst-case" := hmode.2.2
    unfold score_name score_name_unknown_mode
    simp only [if_pos hwc, if_neg hmode.1, if_neg hmode.2.1]

/-- Witness for the amended C8 at a concrete unrecognized mode. -/
theorem unknown_mode_fallthrough_witness :
    (("Foo" : String) ≠ "Normal" ∧ ("Foo" : String) ≠ "Veneco"
        ∧ ("Foo" : String) ≠ "Worst-case") ∧
    (join_with_smoothing [String.toList "ma", String.toList "ri"]
        (Rng.init 0) "Foo"
      = (collapse_runs (smooth_pass (Rng.init 0)
          (clean_concat [String.toList "ma", String.toList "ri"])).1,
         (smooth_pass (Rng.init 0)
           (clean_concat [String.toList "ma", String.toList "ri"])).2) ∧
     score_name (String.toList "jhon") "M" "Foo"
       = score_name_unknown_mode (String.toList "jhon") "M") :=
  ⟨⟨by decide, by decide, by decide⟩,
   unknown_mode_fallthrough [String.toList "ma", String.toList "ri"]
     (Rng.init 0) (String.toList "jhon") "M" "Foo"
     ⟨by decide, by decide, by decide⟩⟩

/-! ### Length lower bounds through smoothing (for C6) -/

theorem smooth_pass_rev_len :
    ∀ (l acc : Str) (rng : Rng),
      acc.length + l.length ≤ (smooth_pass_rev rng acc l).1.length
  | [], acc, rng => by simp [smooth_pass_rev]
  | ch :: rest, acc, rng => by
    cases acc with
    | nil =>
      rw [show smooth_pass_rev rng [] (ch :: rest)
          = smooth_pass_rev rng [ch] rest from rfl]
      have := smooth_pass_rev_len rest [ch] rng
      simp only [List.length_cons, List.length_nil] at this ⊢
      omega
    | cons b0 acc2 =>
      cases acc2 with
      | nil =>
        rw [show smooth_pass_rev rng [b0] (ch :: rest)
            = smooth_pass_rev rng [ch, b0] rest from rfl]
        have := smooth_pass_rev_len rest [ch, b0] rng
        simp only [List.length_cons, List.length_nil] at this ⊢
        omega
      | cons a0 tail =>
        have hstep : smooth_pass_rev rng (b0 :: a0 :: tail) (ch :: rest)
            = if (!is_vowel a0 && !is_vowel b0 && !is_vowel ch
                  && a0 != 'ñ' && b0 != 'ñ' && ch != 'ñ')
              then smooth_pass_rev (rng.choice VOWELS).2
                (ch :: (rng.choice VOWELS).1 :: b0 :: a0 :: tail) rest
              else smooth_pass_rev rng (ch :: b0 :: a0 :: tail) rest := rfl
        rw [hstep]
        split
        · have := smooth_pass_rev_len rest
            (ch :: (rng.choice VOWELS).1 :: b0 :: a0 :: tail) (rng.choice VOWELS).2
          simp only [List.length_cons] at this ⊢
          omega
        · have := smooth_pass_rev_len rest (ch :: b0 :: a0 :: tail) rng
          simp only [List.length_cons] at this ⊢
          omega

theorem smooth_pass_len (rng : Rng) (s : Str) :
    s.length ≤ (smooth_pass rng s).1.length := by
  simp only [smooth_pass, List.length_reverse]
  have := smooth_pass_rev_len s [] rng
  simpa using this

theorem run_emit_length (c : Char) (k : Nat) :
    (run_emit c k).length = min k 2 := by
  simp [run_emit]

theorem collapse_runs_aux_len :
    ∀ (l : Str) (c : Char) (k : Nat), 1 ≤ k →
      min (k + l.length) 2 ≤ (collapse_runs_aux c k l).length
  | [], c, k, hk => by
    rw [collapse_runs_aux, run_emit_length]
    simp only [List.length_nil]
    omega
  | d :: rest, c, k, hk => by
    rw [collapse_runs_aux]
    split
    · have := collapse_runs_aux_len rest c (k + 1) (by omega)
      simp only [List.length_cons] at this ⊢
      omega
    · have h1 := collapse_runs_aux_len rest d 1 (le_refl 1)
      rw [List.length_append, run_emit_length]
      simp only [List.length_cons] at h1 ⊢
      omega

theorem collapse_runs_len2 {l : Str} (h : 2 ≤ l.length) :
    2 ≤ (collapse_runs l).length := by
  cases l with
  | nil => simp at h
  | cons c rest =>
    rw [collapse_runs]
    have := collapse_runs_aux_len rest c 1 (le_refl 1)
    simp only [List.length_cons] at h this
    omega

/-! ### Error-freedom of the smoothing stages -/

theorem smooth_pass_rev_err :
    ∀ (l acc : Str) (rng : Rng), (smooth_pass_rev rng acc l).2.err = rng.err
  | [], _, _ => rfl
  | ch :: rest, acc, rng => by
    cases acc with
    | nil => exact smooth_pass_rev_err rest [ch] rng
    | cons b0 acc2 =>
      cases acc2 with
      | nil => exact smooth_pass_rev_err rest [ch, b0] rng
      | cons a0 tail =>
        have hstep : smooth_pass_rev rng (b0 :: a0 :: tail) (ch :: rest)
            = if (!is_vowel a0 && !is_vowel b0 && !is_vowel ch
                  && a0 != 'ñ' && b0 != 'ñ' && ch != 'ñ')
              then smooth_pass_rev (rng.choice VOWELS).2
                (ch :: (rng.choice VOWELS).1 :: b0 :: a0 :: tail) rest
              else smooth_pass_rev rng (ch :: b0 :: a0 :: tail) rest := rfl
        rw [hstep]
        split
        · rw [smooth_pass_rev_err rest _ _]
          exact choice_err (by decide) rng
        · exact smooth_pass_rev_err rest _ rng

theorem smooth_pass_err (rng : Rng) (s : Str) :
    (smooth_pass rng s).2.err = rng.err :=
  smooth_pass_rev_err s [] rng

theorem rand_insert_at_len (s : Str) (ins : Char) (lo : Nat) (rng : Rng) :
    (rand_insert_at s ins lo rng).1.length = s.length + 1 := by
  rw [rand_insert_at_eq]
  simp only [List.length_append, List.length_cons, List.length_take,
    List.length_drop]
  omega

theorem rand_insert_at_err {s : Str} {lo : Nat} (h : lo < s.length)
    (ins : Char) (rng : Rng) : (rand_insert_at s ins lo rng).2.err = rng.err := by
  rw [rand_insert_at_eq]
  exact randrange_err h rng

theorem veneco_stage2_err {s : Str} (h : 1 ≤ s.length) (rng : Rng) :
    (veneco_stage2 s rng).2.err = rng.err := by
  rw [veneco_stage2_eq]
  split
  · split
    · rw [rand_insert_at_err (by omega) 'y' _]
      exact random_err rng
    · exact random_err rng
  · rfl

theorem veneco_stage2_len (s : Str) (rng : Rng) :
    s.length ≤ (veneco_stage2 s rng).1.length := by
  rw [veneco_stage2_eq]
  split
  · split
    · rw [rand_insert_at_len]
      omega
    · exact le_refl _
  · exact le_refl _

theorem veneco_stage3_err (s : Str) (rng : Rng) :
    (veneco_stage3 s rng).2.err = rng.err := by
  rw [veneco_stage3_eq]
  split
  · rw [choice_err (by decide) _]
    exact random_err rng
  · exact random_err rng

theorem mode_veneco_fix_err {s : Str} (h : 2 ≤ s.length) (rng : Rng) :
    (mode_veneco_fix s rng).2.err = rng.err := by
  rw [mode_veneco_fix_eq]
  dsimp only
  set st1 := if (rng.random).1 < 18 / 100 then rand_insert_at s 'h' 1 (rng.random).2
    else (s, (rng.random).2) with hst1
  have hst1err : st1.2.err = rng.err := by
    rw [hst1]
    split
    · rw [rand_insert_at_err (by omega) 'h' _]
      exact random_err rng
    · exact random_err rng
  have hst1len : 1 ≤ st1.1.length := by
    rw [hst1]
    split
    · rw [rand_insert_at_len]
      omega
    · show 1 ≤ s.length
      omega
  rw [veneco_stage3_err, veneco_stage2_err hst1len, hst1err]

theorem wc_insert_once_err {s : Str} (h : 2 ≤ s.length) (rng : Rng) :
    (wc_insert_once s rng).2.err = rng.err := by
  rw [wc_insert_once_eq]
  rw [choice_err (by decide) _]
  exact randrange_err (by omega) rng

theorem wc_insert_once_len (s : Str) (rng : Rng) :
    s.length ≤ (wc_insert_once s rng).1.length := by
  rw [wc_insert_once_eq]
  simp only [List.length_append, List.length_take, List.length_drop]
  omega

theorem wc_insert_loop_err :
    ∀ (n : Nat) {s : Str} (rng : Rng), 2 ≤ s.length →
      (wc_insert_loop rng s n).2.err = rng.err
  | 0, _, _, _ => rfl
  | n + 1, s, rng, h => by
    rw [show wc_insert_loop rng s (n + 1)
        = wc_insert_loop (wc_insert_once s rng).2 (wc_insert_once s rng).1 n
      from rfl]
    rw [wc_insert_loop_err n _ (le_trans h (wc_insert_once_len s rng))]
    exact wc_insert_once_err h rng

theorem wc_prefix_len {p : Str} (hp : p ∈ WC_PREFIX_POOL) : 2 ≤ p.length := by
  fin_cases hp <;> decide

theorem mode_wc_fix_err (s : Str) (rng : Rng) :
    (mode_wc_fix s rng).2.err = rng.err := by
  rw [mode_wc_fix_eq]
  dsimp only
  have hlen : 2 ≤ ((rng.choice WC_PREFIX_POOL).1 ++ s).length := by
    rw [List.length_append]
    have := wc_prefix_len (@choice_mem Str _ WC_PREFIX_POOL (by decide) rng)
    omega
  rw [choice_err (by decide) _, choice_err (by decide) _,
    wc_insert_loop_err _ _ hlen, randint_err (by omega) _,
    choice_err (by decide) _]

theorem join_with_smoothing_err {parts : List Str} {rng : Rng} {mode : String}
    (hven : mode = "Veneco" → 2 ≤ (clean_concat parts).length) :
    (join_with_smoothing parts rng mode).2.err = rng.err := by
  rw [join_with_smoothing_eq]
  dsimp only
  by_cases h1 : mode = "Normal"
  · rw [if_pos h1]
    exact smooth_pass_err rng _
  rw [if_neg h1]
  by_cases h2 : mode = "Veneco"
  · rw [if_pos h2]
    have hlen : 2 ≤ (collapse_runs (smooth_pass rng (clean_concat parts)).1).length :=
      collapse_runs_len2 (le_trans (hven h2) (smooth_pass_len rng _))
    rw [mode_veneco_fix_err hlen _]
    exact smooth_pass_err rng _
  rw [if_neg h2]
  by_cases h3 : mode = "Worst-case"
  · rw [if_pos h3]
    rw [mode_wc_fix_err _ _]
    exact smooth_pass_err rng _
  · rw [if_neg h3]
    exact smooth_pass_err rng _

/-! ### Error-freedom of the part pickers -/

theorem take_min12_ne {chunks : List Str} (h : chunks ≠ []) :
    chunks.take (min chunks.length 12) ≠ [] := by
  intro hc
  rcases List.take_eq_nil_iff.mp hc with h0 | h0
  · have : chunks.length ≠ 0 := fun hl => h (List.eq_nil_of_length_eq_zero hl)
    omega
  · exact h h0

theorem pick_pref_err {chunks : List Str} (h : chunks ≠ []) (rng : Rng) :
    (pick_pref rng chunks).2.err = rng.err := by
  unfold pick_pref
  exact choice_err (take_min12_ne h) rng

theorem pick_pref_mem {chunks : List Str} (h : chunks ≠ []) (rng : Rng) :
    (pick_pref rng chunks).1 ∈ chunks := by
  unfold pick_pref
  exact List.take_subset _ _ (choice_mem (take_min12_ne h) rng)

theorem pick_suffix_err (name : Str) (rng : Rng) :
    (pick_suffix_from_name rng name).2.err = rng.err := by
  unfold pick_suffix_from_name
  dsimp only
  split
  · rfl
  · exact choice_err (by decide) rng

theorem pick_suffix_good {name : Str} (hne : compact_name name ≠ [])
    (halpha : alphaStr (compact_name name)) (rng : Rng) :
    (pick_suffix_from_name rng name).1 ≠ [] ∧
      alphaStr (pick_suffix_from_name rng name).1 := by
  unfold pick_suffix_from_name
  dsimp only
  split
  · exact ⟨hne, halpha⟩
  · rename_i hlong
    constructor
    · intro hcontra
      have hL := @choice_mem Nat _ [2, 3, 4] (by decide) rng
      have hdrop := List.drop_eq_nil_iff.mp hcontra
      simp only [List.mem_cons, List.not_mem_nil, or_false] at hL
      push_neg at hlong
      rcases hL with hL | hL | hL <;> omega
    · exact alphaStr_drop _ halpha

theorem clean_concat_of_alpha {parts : List Str}
    (h : ∀ p ∈ parts, alphaStr p) : clean_concat parts = parts.flatten := by
  unfold clean_concat
  have hflat : alphaStr parts.flatten := by
    intro c hc
    obtain ⟨p, hp, hcp⟩ := List.mem_flatten.mp hc
    exact h p hp c hcp
  rw [filter_nonspace_id_of_alpha (alphaStr_iff_all.mp hflat)]
  exact List.filter_eq_self.mpr (fun a ha => hflat a ha)

theorem clean_concat_len2 {parts : List Str} (halpha : ∀ p ∈ parts, alphaStr p)
    (hne : ∀ p ∈ parts, p ≠ []) (hlen : 2 ≤ parts.length) :
    2 ≤ (clean_concat parts).length := by
  rw [clean_concat_of_alpha halpha]
  match parts, hlen with
  | x :: y :: rest, _ =>
    have hx : 1 ≤ x.length := List.length_pos.mpr (hne x (by simp))
    have hy : 1 ≤ y.length := List.length_pos.mpr (hne y (by simp [List.mem_cons]))
    simp only [List.flatten_cons, List.length_append]
    omega

/-! ### Error-freedom of a whole attempt -/

theorem build_attempt_name_eq (ctx : GenCtx) (rng : Rng) :
    build_attempt_name ctx rng
      = (if ctx.mode = "Veneco" then
          (let a1 := rng.choices_one VENECO_TEMPLATES VENECO_WEIGHTS
           let a2 := a1.2.choice ctx.v_pre
           let a3 := a2.2.choice ctx.v_suf
           let a4 := a3.2.choice VENCO_LINKERS
           let a5 := pick_pref a4.2 ctx.f_chunks
           let a6 := a5.2.random
           let a7 := if a6.1 < 70 / 100 then pick_suffix_from_name a6.2 ctx.mother
                     else pick_pref a6.2 ctx.m_chunks
           let parts :=
             if a1.1 = "P+M" then [a2.1, a7.1]
             else if a1.1 = "F+S" then [a5.1, a3.1]
             else if a1.1 = "P+F+S" then [a2.1, a5.1, a3.1]
             else if a1.1 = "P+M+S" then [a2.1, a7.1, a3.1]
             else if a1.1 = "P+L+M" then [a2.1, a4.1, a7.1]
             else if a1.1 = "F+L+S" then [a5.1, a4.1, a3.1]
             else if a1.1 = "P+F" then [a2.1, a5.1]
             else if a1.1 = "P+L+F+S" then [a2.1, a4.1, a5.1, a3.1]
             else [a7.1, a3.1]
           join_with_smoothing parts a7.2 ctx.mode)
        else
          (let b1 := rng.choice PATTERNS
           let p1 := if b1.1.1 ≠ 0 then
               (([] : List Str) ++ [(pick_pref b1.2 ctx.f_chunks).1],
                (pick_pref b1.2 ctx.f_chunks).2)
             else ([], b1.2)
           let p2 := if b1.1.2.1 ≠ 0 then
               (let u := p1.2.random
                let x := if u.1 < 6 / 10 then pick_suffix_from_name u.2 ctx.mother
                         else pick_pref u.2 ctx.m_chunks
                (p1.1 ++ [x.1], x.2))
             else p1
           let p3 := if b1.1.2.2 ≠ 0 then
               (p2.1 ++ [(p2.2.choice ctx.endings).1],
                (p2.2.choice ctx.endings).2)
             else p2
           join_with_smoothing p3.1 p3.2 ctx.mode)) := rfl

theorem build_attempt_name_err {ctx : GenCtx} (hwf : CtxWF ctx) (rng : Rng) :
    (build_attempt_name ctx rng).2.err = rng.err := by
  rw [build_attempt_name_eq]
  by_cases hmode : ctx.mode = "Veneco"
  · rw [if_pos hmode]
    dsimp only
    set a1 := rng.choices_one VENECO_TEMPLATES VENECO_WEIGHTS with ha1
    set a2 := a1.2.choice ctx.v_pre with ha2
    set a3 := a2.2.choice ctx.v_suf with ha3
    set a4 := a3.2.choice VENCO_LINKERS with ha4
    set a5 := pick_pref a4.2 ctx.f_chunks with ha5
    set a6 := a5.2.random with ha6
    set a7 := if a6.1 < 70 / 100 then pick_suffix_from_name a6.2 ctx.mother
      else pick_pref a6.2 ctx.m_chunks with ha7
    have hP : a2.1 ≠ [] ∧ alphaStr a2.1 :=
      hwf.v_pre_good _ (choice_mem hwf.v_pre_ne _)
    have hS : a3.1 ≠ [] ∧ alphaStr a3.1 :=
      hwf.v_suf_good _ (choice_mem hwf.v_suf_ne _)
    have hL : a4.1 ≠ [] ∧ alphaStr a4.1 := by
      have hmem := @choice_mem Str _ VENCO_LINKERS (by decide) a3.2
      exact good_pool_of_all (by decide) _ hmem
    have hF : a5.1 ≠ [] ∧ alphaStr a5.1 :=
      hwf.f_good _ (pick_pref_mem hwf.f_ne a4.2)
    have hM : a7.1 ≠ [] ∧ alphaStr a7.1 := by
      rw [ha7]
      split
      · exact pick_suffix_good hwf.mother_ne hwf.mother_alpha a6.2
      · exact hwf.m_good _ (pick_pref_mem hwf.m_ne a6.2)
    have ha7err : a7.2.err = rng.err := by
      rw [ha7]
      have h6 : a6.2.err = rng.err := by
        rw [ha6, random_err, ha5, pick_pref_err hwf.f_ne, ha4,
          choice_err (by decide), ha3, choice_err hwf.v_suf_ne, ha2,
          choice_err hwf.v_pre_ne, ha1,
          choices_one_err (by decide) (by decide)]
      split
      · rw [pick_suffix_err, h6]
      · rw [pick_pref_err hwf.m_ne, h6]
    rw [join_with_smoothing_err ?_, ha7err]
    intro _
    split
    · exact clean_concat_len2 (by
        intro p hp
        simp only [List.mem_cons, List.not_mem_nil, or_false] at hp
        rcases hp with rfl | rfl
        · exact hP.2
        · exact hM.2) (by
        intro p hp
        simp only [List.mem_cons, List.not_mem_nil, or_false] at hp
        rcases hp with rfl | rfl
        · exact hP.1
        · exact hM.1) (by simp)
    split
    · exact clean_concat_len2 (by
        intro p hp
        simp only [List.mem_cons, List.not_mem_nil, or_false] at hp
        rcases hp with rfl | rfl
        · exact hF.2
        · exact hS.2) (by
        intro p hp
        simp only [List.mem_cons, List.not_mem_nil, or_false] at hp
        rcases hp with rfl | rfl
        · exact hF.1
        · exact hS.1) (by simp)
    split
    · exact clean_concat_len2 (by
        intro p hp
        simp only [List.mem_cons, List.not_mem_nil, or_false] at hp
        rcases hp with rfl | rfl | rfl
        · exact hP.2
        · exact hF.2
        · exact hS.2) (by
        intro p hp
        simp only [List.mem_cons, List.not_mem_nil, or_false] at hp
        rcases hp with rfl | rfl | rfl
        · exact hP.1
        · exact hF.1
        · exact hS.1) (by simp)
    split
    · exact clean_concat_len2 (by
        intro p hp
        simp only [List.mem_cons, List.not_mem_nil, or_false] at hp
        rcases hp with rfl | rfl | rfl
        · exact hP.2
        · exact hM.2
        · exact hS.2) (by
        intro p hp
        simp only [List.mem_cons, List.not_mem_nil, or_false] at hp
        rcases hp with rfl | rfl | rfl
        · exact hP.1
        · exact hM.1
        · exact hS.1) (by simp)
    split
    · exact clean_concat_len2 (by
        intro p hp
        simp only [List.mem_cons, List.not_mem_nil, or_false] at hp
        rcases hp with rfl | rfl | rfl
        · exact hP.2
        · exact hL.2
        · exact hM.2) (by
        intro p hp
        simp only [List.mem_cons, List.not_mem_nil, or_false] at hp
        rcases hp with rfl | rfl | rfl
        · exact hP.1
        · exact hL.1
        · exact hM.1) (by simp)
    split
    · exact clean_concat_len2 (by
        intro p hp
        simp only [List.mem_cons, List.not_mem_nil, or_false] at hp
        rcases hp with rfl | rfl | rfl
        · exact hF.2
        · exact hL.2
        · exact hS.2) (by
        intro p hp
        simp only [List.mem_cons, List.not_mem_nil, or_false] at hp
        rcases hp with rfl | rfl | rfl
        · exact hF.1
        · exact hL.1
        · exact hS.1) (by simp)
    split
    · exact clean_concat_len2 (by
        intro p hp
        simp only [List.mem_cons, List.not_mem_nil, or_false] at hp
        rcases hp with rfl | rfl
        · exact hP.2
        · exact hF.2) (by
        intro p hp
        simp only [List.mem_cons, List.not_mem_nil, or_false] at hp
        rcases hp with rfl | rfl
        · exact hP.1
        · exact hF.1) (by simp)
    split
    · exact clean_concat_len2 (by
        intro p hp
        simp only [List.mem_cons, List.not_mem_nil, or_false] at hp
        rcases hp with rfl | rfl | rfl | rfl
        · exact hP.2
        · exact hL.2
        · exact hF.2
        · exact hS.2) (by
        intro p hp
        simp only [List.mem_cons, List.not_mem_nil, or_false] at hp
        rcases hp with rfl | rfl | rfl | rfl
        · exact hP.1
        · exact hL.1
        · exact hF.1
        · exact hS.1) (by simp)
    · exact clean_concat_len2 (by
        intro p hp
        simp only [List.mem_cons, List.not_mem_nil, or_false] at hp
        rcases hp with rfl | rfl
        · exact hM.2
        · exact hS.2) (by
        intro p hp
        simp only [List.mem_cons, List.not_mem_nil, or_false] at hp
        rcases hp with rfl | rfl
        · exact hM.1
        · exact hS.1) (by simp)
  · rw [if_neg hmode]
    dsimp only
    set b1 := rng.choice PATTERNS with hb1
    set p1 := if b1.1.1 ≠ 0 then
        (([] : List Str) ++ [(pick_pref b1.2 ctx.f_chunks).1],
         (pick_pref b1.2 ctx.f_chunks).2)
      else ([], b1.2) with hp1
    set p2 := if b1.1.2.1 ≠ 0 then
        (let u := p1.2.random
         let x := if u.1 < 6 / 10 then pick_suffix_from_name u.2 ctx.mother
                  else pick_pref u.2 ctx.m_chunks
         (p1.1 ++ [x.1], x.2))
      else p1 with hp2
    set p3 := if b1.1.2.2 ≠ 0 then
        (p2.1 ++ [(p2.2.choice ctx.endings).1], (p2.2.choice ctx.endings).2)
      else p2 with hp3
    have hb1err : b1.2.err = rng.err := choice_err (by decide) rng
    have hp1err : p1.2.err = rng.err := by
      rw [hp1]
      split
      · rw [pick_pref_err hwf.f_ne, hb1err]
      · exact hb1err
    have hp2err : p2.2.err = rng.err := by
      rw [hp2]
      split
      · dsimp only
        split
        · rw [pick_suffix_err, random_err, hp1err]
        · rw [pick_pref_err hwf.m_ne, random_err, hp1err]
      · exact hp1err
    have hp3err : p3.2.err = rng.err := by
      rw [hp3]
      split
      · rw [choice_err hwf.endings_ne, hp2err]
      · exact hp2err
    rw [join_with_smoothing_err (fun hv => absurd hv hmode), hp3err]

theorem attempt_step_err {ctx : GenCtx} (hwf : CtxWF ctx)
    (cands : List Candidate) (rng : Rng) :
    (attempt_step ctx (cands, rng)).2.err = rng.err := by
  rw [attempt_step_eq]
  dsimp only
  split
  · exact build_attempt_name_err hwf rng
  split
  · exact build_attempt_name_err hwf rng
  split
  · exact build_attempt_name_err hwf rng
  rcases hget : cand_get cands (build_attempt_name ctx rng).1 with _ | prev
  · simp only [hget]
    exact build_attempt_name_err hwf rng
  · simp only [hget]
    split
    · exact build_attempt_name_err hwf rng
    · exact build_attempt_name_err hwf rng

theorem run_attempts_err {ctx : GenCtx} (hwf : CtxWF ctx) :
    ∀ (n : Nat) (st : List Candidate × Rng),
      (run_attempts ctx n st).2.err = st.2.err
  | 0, _ => rfl
  | n + 1, st => by
    rw [show run_attempts ctx (n + 1) st
        = run_attempts ctx n (attempt_step ctx st) from rfl]
    rw [run_attempts_err hwf n _]
    exact attempt_step_err hwf st.1 st.2

/-- C6: for every pair of name strings, gender `M`/`H`, one of the three
modes, positive `k` and a non-errored random state, `generate_names` runs to
completion without any random draw raising (no empty `choice`, no empty
`randrange`): the final random state is still non-errored.  All failure is
the empty-result return. -/
theorem generate_names_no_failure (rng : Rng) (father mother : Str)
    (gender mode : String) (k : Nat)
    (hg : gender = "M" ∨ gender = "H")
    (hmode : mode = "Normal" ∨ mode = "Veneco" ∨ mode = "Worst-case")
    (hk : 0 < k) (herr : rng.err = false) :
    (generate_names_core rng father mother gender mode k).2.err = false := by
  rw [generate_names_core_eq]
  dsimp only
  unfold generate_candidates
  dsimp only
  split
  · exact herr
  · rename_i hcond
    push_neg at hcond
    have hwf := mk_ctx_wf hcond.1 hcond.2
    rw [run_attempts_err hwf _ _]
    exact herr

/-- Witness for C6 at a concrete input. -/
theorem generate_names_no_failure_witness :
    (("H" : String) = "M" ∨ ("H" : String) = "H") ∧
    (("Worst-case" : String) = "Normal" ∨ ("Worst-case" : String) = "Veneco"
      ∨ ("Worst-case" : String) = "Worst-case") ∧
    0 < 5 ∧ (Rng.init 7).err = false ∧
    (generate_names_core (Rng.init 7) (String.toList "juan")
      (String.toList "rosa") "H" "Worst-case" 5).2.err = false :=
  ⟨Or.inr rfl, Or.inr (Or.inr rfl), by omega, rfl,
   generate_names_no_failure (Rng.init 7) (String.toList "juan")
     (String.toList "rosa") "H" "Worst-case" 5 (Or.inr rfl)
     (Or.inr (Or.inr rfl)) (by omega) rfl⟩
